import Mathlib

/-!
Shallow embedding of the queueing-model engine of this repository
(`src/modelos/*.py`, plus the `Mmsk` / `Mm1n` classes of `src/formulas.py`).

Conventions of the embedding:
* Python floats are modelled as exact rationals (`ℚ`).  All the formulas of
  the engine are field arithmetic, so every reachable value is rational.
* A Python function that can `raise` is modelled as `Except PyErr _`; each
  distinct `raise` site of the source gets its own `PyErr` constructor (the
  comment on the constructor quotes the message of the source).
* Python float division `x / y` raises `ZeroDivisionError` when `y == 0`.
  Where the control flow of the source has already established that the
  denominator is nonzero (for example a `mu <= 0` check precedes every
  division by `mu`), we use total division on `ℚ`, which agrees with the
  source on every reachable state.  Where a zero denominator is reachable
  (for example `W = L / lmbda` in `mm1` with `lmbda = 0`), the division is
  modelled explicitly with `pdiv`, which returns `PyErr.divByZero`.
* Default calls are modelled: the optional probability queries `n` / `t` of
  the single-class models are taken as `None` (`none`) unless a claim needs
  them (`mm1n`, `mm1k`, `mmsk`, `mmsn` carry the optional `n` query).
-/

/-- Errors of the Python engine.  Each constructor corresponds to one family
of `raise` sites; the source message is quoted in the comment. -/
inductive PyErr where
  /-- `arrival_rates nao pode ser vazio.` (priority_common.coerce_arrival_rates) -/
  | emptyRates : PyErr
  /-- `lambda_{idx} deve ser >= 0.` (priority_common.coerce_arrival_rates);
  carries the 1-based index of the offending class. -/
  | negLambdaClass : ℕ → PyErr
  /-- `mu deve ser > 0.` / `mu (taxa de atendimento) não pode ser zero.` -/
  | muNonPos : PyErr
  /-- `s deve ser inteiro >= 1.` -/
  | sNonPos : PyErr
  /-- `Sistema instavel: lambda_total=... >= s*mu = ...` —
  the aggregate pre-flight rejection of `validate_common_inputs`; its message
  reports the total rate and the capacity, it does NOT name a class index. -/
  | unstableAggregate : PyErr
  /-- `A subfila ate a classe {idx+1} ficou instavel: lambda=... >= mu.` —
  the per-class rejection inside the priority loops; its message names the
  1-based index of the offending class, carried here. -/
  | unstableClass : ℕ → PyErr
  /-- `Sistema instavel: lambda_total >= mu.` (tail of mm1_priority_preemptive). -/
  | unstableRhoTotal : PyErr
  /-- `Subfila com lambda=... e s*mu=... e instavel (rho=... >= 1).` (erlang_c). -/
  | erlangUnstable : PyErr
  /-- `lambda (lmbda) deve ser >= 0` (single-class models). -/
  | lambdaNeg : PyErr
  /-- `Sistema instavel (rho = ... >= 1).` (mm1 / mms). -/
  | unstableRho : PyErr
  /-- `K deve ser >= s` (mmsk) and `K ({k}) deve ser maior ou igual a s ({s}).`
  (formulas.Mmsk.__init__). -/
  | kLessS : PyErr
  /-- `Caso rho  1 nao suportado para Lq em M/M/s/K.` (modelos/mmsk.py). -/
  | rhoOneUnsupported : PyErr
  /-- `n deve ser inteiro entre 0 e {K}` and the analogous range errors of the
  optional `n` query. -/
  | nOutOfRange : PyErr
  /-- Python `ZeroDivisionError` (float division by zero). -/
  | divByZero : PyErr
deriving DecidableEq, Repr

/-- Python float division: raises `ZeroDivisionError` on a zero denominator. -/
def pdiv (x y : ℚ) : Except PyErr ℚ :=
  if y = 0 then .error .divByZero else .ok (x / y)

/-- The running sum `sum(a**k / factorial(k) for k in range(s))`, shared by
`mms`, `erlang_c`, `aggregate_totals` and `mms_priority_non_preemptive`. -/
def powFactSum (a : ℚ) : ℕ → ℚ
  | 0 => 0
  | n + 1 => powFactSum a n + a ^ n / (Nat.factorial n : ℚ)

/-- Metrics record returned by the infinite-capacity single-class models
`mm1` and `mms` (keys `rho, p0, L, Lq, W, Wq` of the Python dict). -/
structure SCMetrics where
  rho : ℚ
  p0 : ℚ
  L : ℚ
  Lq : ℚ
  W : ℚ
  Wq : ℚ
deriving DecidableEq, Repr

/-- `src/modelos/mm1.py::mm1` with the optional queries left at their default
(`n=None`, `t=None`).  The divisions `W = L / lmbda` and `Wq = Lq / lmbda`
are unguarded in the source, so they are modelled with `pdiv`. -/
def mm1 (lmbda mu : ℚ) : Except PyErr SCMetrics := do
  if lmbda < 0 then throw .lambdaNeg
  if mu ≤ 0 then throw .muNonPos
  let rho := lmbda / mu
  if 1 ≤ rho then throw .unstableRho
  let p0 := 1 - rho
  let L := rho / (1 - rho)
  let Lq := rho ^ 2 / (1 - rho)
  let W ← pdiv L lmbda
  let Wq ← pdiv Lq lmbda
  return { rho := rho, p0 := p0, L := L, Lq := Lq, W := W, Wq := Wq }

/-- `src/modelos/mms.py::mms` with the optional queries left at their default.
All divisions below the `lmbda == 0` early return have nonzero denominators
(`lmbda ≠ 0`, `mu > 0`, `s ≥ 1`, `1 - rho ≠ 0`, factorials), matching the
reachable behaviour of the source. -/
def mms (lmbda mu : ℚ) (s : ℕ) : Except PyErr SCMetrics := do
  if lmbda < 0 then throw .lambdaNeg
  if mu ≤ 0 then throw .muNonPos
  if s = 0 then throw .sNonPos
  if lmbda = 0 then
    return { rho := 0, p0 := 1, L := 0, Lq := 0, W := 0, Wq := 0 }
  let rho := lmbda / (s * mu)
  if 1 ≤ rho then throw .unstableRho
  let a := lmbda / mu
  let sum1 := powFactSum a s
  let sum2 := a ^ s / ((Nat.factorial s : ℚ) * (1 - rho))
  let p0 := 1 / (sum1 + sum2)
  let Lq := p0 * a ^ s * rho / ((Nat.factorial s : ℚ) * (1 - rho) ^ 2)
  let L := Lq + a
  let Wq := Lq / lmbda
  let W := L / lmbda
  return { rho := rho, p0 := p0, L := L, Lq := Lq, W := W, Wq := Wq }

/-- `src/modelos/priority_common.py::erlang_c`.  The division defining `rho`
is modelled with `pdiv` because the source performs it before any check on
`mu` or `s`. -/
def erlang_c (lmbda mu : ℚ) (s : ℕ) : Except PyErr ℚ := do
  if lmbda ≤ 0 then
    return 0
  let rho ← pdiv lmbda (s * mu)
  if 1 ≤ rho then throw .erlangUnstable
  let a := lmbda / mu
  let sum_terms := powFactSum a s
  let last_term := a ^ s / ((Nat.factorial s : ℚ) * (1 - rho))
  let p0 := 1 / (sum_terms + last_term)
  return last_term * p0

/-- Per-class metrics dict of the priority engines.  The four engines store
slightly different key sets in their dicts; this structure is their union,
and each engine fills only the keys its dict has (a field that the engine's
dict does not contain is set to `0` and never consulted by any claim):
* preemptive engines also store `lam_cum`, `L_class`, `Lq_class`
  (and `P(wait)` = `pwait` for `s > 1`);
* the non-preemptive `s > 1` engine also stores `base_factor`. -/
structure ClassMetrics where
  priority : ℕ
  lam : ℚ
  lam_cum : ℚ
  rho : ℚ
  W : ℚ
  Wq : ℚ
  L : ℚ
  Lq : ℚ
  L_class : ℚ
  Lq_class : ℚ
  pwait : ℚ
  base_factor : ℚ
deriving DecidableEq, Repr

/-- Aggregate result dict of the priority engines (keys
`rho, p0, L, Lq, W, Wq, per_class, lambda_total, service_in_progress`). -/
structure PriorityResult where
  rho : ℚ
  p0 : ℚ
  L : ℚ
  Lq : ℚ
  W : ℚ
  Wq : ℚ
  per_class : List ClassMetrics
  lambda_total : ℚ
  service_in_progress : ℚ
deriving DecidableEq, Repr

/-- `priority_common.py::coerce_arrival_rates` (on an already-materialised
list of rationals): rejects the empty list, then scans for the first
negative rate, reporting its 1-based index. -/
def coerceScan : List ℚ → ℕ → Except PyErr Unit
  | [], _ => .ok ()
  | r :: rest, idx => if r < 0 then .error (.negLambdaClass idx) else coerceScan rest (idx + 1)

/-- `priority_common.py::coerce_arrival_rates`. -/
def coerce_arrival_rates (rates : List ℚ) : Except PyErr (List ℚ) := do
  if rates = [] then throw .emptyRates
  let _ ← coerceScan rates 1
  return rates

/-- `priority_common.py::validate_common_inputs`.  `total_lambda` is
`prefix_sums(rates)[-1] = sum(rates)`. -/
def validate_common_inputs (rates : List ℚ) (mu : ℚ) (s : ℕ) : Except PyErr (List ℚ) := do
  let clean ← coerce_arrival_rates rates
  if mu ≤ 0 then throw .muNonPos
  if s = 0 then throw .sNonPos
  let total := clean.sum
  let capacity := (s : ℚ) * mu
  if capacity ≤ total ∧ 0 < capacity then throw .unstableAggregate
  return clean

/-- Loop body of `mm1_priority_preemptive` (the `for idx, lam in
enumerate(rates)` loop).  `idx` is the 0-based class index, `prev` the
cumulative rate of the classes already processed (`prefix[idx-1]`, `0` for
the first class).  Returns the per-class list together with the running
totals `total_L` and `total_Lq` of the source. -/
def preLoop (mu : ℚ) : List ℚ → ℕ → ℚ → Except PyErr (List ClassMetrics × ℚ × ℚ)
  | [], _, _ => .ok ([], 0, 0)
  | lam :: rest, idx, prev => do
    let cum := prev + lam
    if mu - prev ≤ 0 ∨ mu - cum ≤ 0 then throw (.unstableClass (idx + 1))
    let W := mu / ((mu - prev) * (mu - cum))
    let Wq := max (W - 1 / mu) 0
    let Lc := lam * W
    let Lqc := lam * Wq
    let Lcum := cum * W
    let Lqcum := Lcum - cum / mu
    let (tail, restL, restLq) ← preLoop mu rest (idx + 1) cum
    return ({ priority := idx + 1, lam := lam, lam_cum := cum, rho := lam / mu,
              W := W, Wq := Wq, L := Lcum, Lq := Lqcum,
              L_class := Lc, Lq_class := Lqc, pwait := 0, base_factor := 0 } :: tail,
            Lc + restL, Lqc + restLq)

/-- Degenerate all-zero result of `mm1_priority_preemptive` (the
`total_lambda == 0` branch; its per-class dicts only carry the keys
`priority, lambda, rho, W, Wq, L, Lq`, all zero). -/
def zeroPriorityResult (rates : List ℚ) : PriorityResult :=
  { rho := 0, p0 := 1, L := 0, Lq := 0, W := 0, Wq := 0,
    per_class := rates.enum.map fun p =>
      { priority := p.1 + 1, lam := p.2, lam_cum := 0, rho := 0,
        W := 0, Wq := 0, L := 0, Lq := 0, L_class := 0, Lq_class := 0,
        pwait := 0, base_factor := 0 },
    lambda_total := 0, service_in_progress := 0 }

/-- `src/modelos/mm1_priority_preemptive.py::mm1_priority_preemptive`. -/
def mm1_priority_preemptive (arrival_rates : List ℚ) (mu : ℚ) :
    Except PyErr PriorityResult := do
  let rates ← validate_common_inputs arrival_rates mu 1
  let total := rates.sum
  if total = 0 then
    return zeroPriorityResult rates
  let (cls, totL, totLq) ← preLoop mu rates 0 0
  let rhoTotal := total / mu
  if 1 ≤ rhoTotal then throw .unstableRhoTotal
  let p0 := 1 - rhoTotal
  let Wtotal := if 0 < total then totL / total else 0
  let WqTotal := if 0 < total then totLq / total else 0
  return { rho := rhoTotal, p0 := p0, L := totL, Lq := totLq,
           W := Wtotal, Wq := WqTotal, per_class := cls,
           lambda_total := total, service_in_progress := total / mu }

/-- `priority_common.py::aggregate_totals`, parametrised by the per-class
list.  The sums over the class dicts are the sums of the corresponding
fields, and the divisions are exactly the guarded divisions of the source
(`mu > 0` and `total_lambda > 0` are tested before dividing; the `s > 1`
branch divides by `1 - rho`, nonzero on every reachable call). -/
def aggregate_totals (cls : List ClassMetrics) (mu : ℚ) (s : ℕ) : PriorityResult :=
  let total := (cls.map ClassMetrics.lam).sum
  let totL := (cls.map ClassMetrics.L).sum
  let totLq := (cls.map ClassMetrics.Lq).sum
  let service := if 0 < mu then total / mu else 0
  let W := if 0 < total then totL / total else 0
  let Wq := if 0 < total then totLq / total else 0
  let rho := if 0 < mu then total / ((s : ℚ) * mu) else 0
  let p0 :=
    if s = 1 then 1 - rho
    else
      let a := total / mu
      1 / (powFactSum a s + a ^ s / ((Nat.factorial s : ℚ) * (1 - rho)))
  { rho := rho, p0 := p0, L := totL, Lq := totLq, W := W, Wq := Wq,
    per_class := cls, lambda_total := total, service_in_progress := service }

/-- Loop body of `mm1_priority_non_preemptive`; `total` is the full
`total_lambda` of the call. -/
def nonPreLoop (mu total : ℚ) : List ℚ → ℕ → ℚ → Except PyErr (List ClassMetrics)
  | [], _, _ => .ok []
  | lam :: rest, idx, prev => do
    let cum := prev + lam
    if mu - cum ≤ 0 ∨ mu - prev ≤ 0 then throw (.unstableClass (idx + 1))
    let Wq := total / ((mu - prev) * (mu - cum))
    let W := Wq + 1 / mu
    let Lq := lam * Wq
    let L := lam * W
    let tail ← nonPreLoop mu total rest (idx + 1) cum
    return ({ priority := idx + 1, lam := lam, lam_cum := 0, rho := lam / mu,
              W := W, Wq := Wq, L := L, Lq := Lq,
              L_class := 0, Lq_class := 0, pwait := 0, base_factor := 0 } :: tail)

/-- `src/modelos/mm1_priority_non_preemptive.py::mm1_priority_non_preemptive`. -/
def mm1_priority_non_preemptive (arrival_rates : List ℚ) (mu : ℚ) :
    Except PyErr PriorityResult := do
  let rates ← validate_common_inputs arrival_rates mu 1
  let total := rates.sum
  if total = 0 then
    mm1_priority_preemptive arrival_rates mu
  else do
    let cls ← nonPreLoop mu total rates 0 0
    return aggregate_totals cls mu 1

/-- Loop body of `mms_priority_preemptive` (`s ≥ 2`).  The source keeps the
list `W_list` of the already-finalised per-class waits and computes
`numer = cum_lambda * Wbar_cum - sum(rates[j] * W_list[j] for j < idx)`
by repeated subtraction; `accLW` carries that running sum `Σ_{j<idx} λⱼ·Wⱼ`
(exact rational arithmetic, so the repeated subtraction and the accumulated
sum coincide).  The division `numer / lam` is unguarded in the source, so it
is modelled with `pdiv`. -/
def mmsPreLoop (mu : ℚ) (s : ℕ) :
    List ℚ → ℕ → ℚ → ℚ → Except PyErr (List ClassMetrics)
  | [], _, _, _ => .ok []
  | lam :: rest, idx, prev, accLW => do
    let cum := prev + lam
    let ec ← erlang_c cum mu s
    let mcum ← mms cum mu s
    let Wbar := mcum.W
    let Wk ← if idx = 0 then pure Wbar else pdiv (cum * Wbar - accLW) lam
    let Wqk := max (Wk - 1 / mu) 0
    let Lcum := cum * Wk
    let Lqcum := max (Lcum - cum / mu) 0
    let Lc := lam * Wk
    let Lqc := lam * Wqk
    let tail ← mmsPreLoop mu s rest (idx + 1) cum (accLW + lam * Wk)
    return ({ priority := idx + 1, lam := lam, lam_cum := cum,
              rho := lam / ((s : ℚ) * mu), W := Wk, Wq := Wqk,
              L := Lcum, Lq := Lqcum, L_class := Lc, Lq_class := Lqc,
              pwait := ec, base_factor := 0 } :: tail)

/-- `src/modelos/mms_priority_preemptive.py::mms_priority_preemptive`. -/
def mms_priority_preemptive (arrival_rates : List ℚ) (mu : ℚ) (s : ℕ) :
    Except PyErr PriorityResult := do
  if s = 1 then
    mm1_priority_preemptive arrival_rates mu
  else do
    let rates ← validate_common_inputs arrival_rates mu s
    let total := rates.sum
    if total = 0 then
      return zeroPriorityResult rates
    let totals ← mms total mu s
    let cls ← mmsPreLoop mu s rates 0 0 0
    return { rho := total / ((s : ℚ) * mu), p0 := totals.p0,
             L := totals.L, Lq := totals.Lq, W := totals.W, Wq := totals.Wq,
             per_class := cls, lambda_total := total,
             service_in_progress := total / mu }

/-- Loop body of `mms_priority_non_preemptive` (`s ≥ 2`); `base` is the
`base_factor` computed once before the loop. -/
def mmsNonPreLoop (mu : ℚ) (s : ℕ) (base : ℚ) :
    List ℚ → ℕ → ℚ → Except PyErr (List ClassMetrics)
  | [], _, _ => .ok []
  | lam :: rest, idx, prev => do
    let cum := prev + lam
    let fp := 1 - prev / ((s : ℚ) * mu)
    let fc := 1 - cum / ((s : ℚ) * mu)
    if fp ≤ 0 ∨ fc ≤ 0 then throw (.unstableClass (idx + 1))
    let W := 1 / (base * fp * fc) + 1 / mu
    let Wq := max (W - 1 / mu) 0
    let L := lam * W
    let Lq := max (L - lam / mu) 0
    let tail ← mmsNonPreLoop mu s base rest (idx + 1) cum
    return ({ priority := idx + 1, lam := lam, lam_cum := 0,
              rho := lam / ((s : ℚ) * mu), W := W, Wq := Wq, L := L, Lq := Lq,
              L_class := 0, Lq_class := 0, pwait := 0, base_factor := base } :: tail)

/-- `src/modelos/mms_priority_non_preemptive.py::mms_priority_non_preemptive`. -/
def mms_priority_non_preemptive (arrival_rates : List ℚ) (mu : ℚ) (s : ℕ) :
    Except PyErr PriorityResult := do
  if s = 1 then
    mm1_priority_non_preemptive arrival_rates mu
  else do
    let rates ← validate_common_inputs arrival_rates mu s
    let total := rates.sum
    if total = 0 then
      mms_priority_preemptive arrival_rates mu s
    else do
      let r := total / mu
      let sum_terms := powFactSum r s
      let base :=
        if r = 0 then (s : ℚ) * mu
        else ((Nat.factorial s : ℚ) * ((s : ℚ) * mu - total) / r ^ s) * sum_terms
               + (s : ℚ) * mu
      let cls ← mmsNonPreLoop mu s base rates 0 0
      return aggregate_totals cls mu s

/-- `src/modelos/mm1n.py::_comb`: the integer loop computes the falling
product `n·(n-1)·…·(n-k+1)` divided by `k!` (exact integer division, equal
to the binomial coefficient); `0` when `k > n`. -/
def pyComb (n k : ℕ) : ℕ :=
  if n < k then 0 else Nat.descFactorial n k / Nat.factorial k

/-- Result record of the finite models (`mm1k`, `mm1n`, `mmsk`, `mmsn`).
Fields that a given model's dict does not contain are set to `0` / `none`
and never consulted by any claim about that model. -/
structure FiniteMetrics where
  rho : ℚ
  p0 : ℚ
  L : ℚ
  Lq : ℚ
  W : ℚ
  Wq : ℚ
  lambda_eff : ℚ
  pK : ℚ
  L_operational : ℚ
  p_any_idle : ℚ
  pn : Option ℚ
deriving DecidableEq, Repr

/-- `src/modelos/mm1n.py::mm1n` with the optional query `n` (`t` is unused by
the source).  `pn_values[k] = _comb(N, k) * r^k * p0`; the denominator of
`p0` is at least `_comb(N,0)·r^0 = 1` for `r ≥ 0`, so the division matches
the source on every reachable state. -/
def mm1n (lmbda mu : ℚ) (N : ℕ) (n : Option ℕ) : Except PyErr FiniteMetrics := do
  if lmbda < 0 then throw .lambdaNeg
  if mu ≤ 0 then throw .muNonPos
  if N = 0 then
    let pn ← match n with
      | none => pure none
      | some nv => pure (some (if nv = 0 then (1 : ℚ) else 0))
    return { rho := 0, p0 := 1, L := 0, Lq := 0, W := 0, Wq := 0,
             lambda_eff := 0, pK := 0, L_operational := 0, p_any_idle := 0,
             pn := pn }
  let r := lmbda / mu
  let denom := ((List.range (N + 1)).map fun k => (pyComb N k : ℚ) * r ^ k).sum
  let p0 := 1 / denom
  let pnVal := fun k => (pyComb N k : ℚ) * r ^ k * p0
  let L := ((List.range (N + 1)).map fun (k : ℕ) => (k : ℚ) * pnVal k).sum
  let Lq := L - (1 - p0)
  let lambdaEff := lmbda * ((N : ℚ) - L)
  let W := if 0 < lambdaEff then L / lambdaEff else 0
  let Wq := if 0 < lambdaEff then Lq / lambdaEff else 0
  let pn ← match n with
    | none => pure none
    | some nv =>
        if N < nv then throw .nOutOfRange
        else pure (some (pnVal nv))
  return { rho := (N : ℚ) * lmbda / mu, p0 := p0, L := L, Lq := Lq,
           W := W, Wq := Wq, lambda_eff := lambdaEff, pK := 0,
           L_operational := (N : ℚ) - L, p_any_idle := 0, pn := pn }

/-- Modelled from the spec (claim C6): the finite-population M/M/1/N state
probability `pₙ = p0 · [N!/(N−n)!] · (λ/μ)ⁿ` with
`p0 = 1 / Σ_{n=0}^{N} [N!/(N−n)!] · (λ/μ)ⁿ`.  `N!/(N−n)!` is the falling
factorial `Nat.descFactorial N n`. -/
def spec_mm1n_p0 (lmbda mu : ℚ) (N : ℕ) : ℚ :=
  1 / ((List.range (N + 1)).map fun k => (Nat.descFactorial N k : ℚ) * (lmbda / mu) ^ k).sum

/-- Modelled from the spec (claim C6), see `spec_mm1n_p0`. -/
def spec_mm1n_pn (lmbda mu : ℚ) (N n : ℕ) : ℚ :=
  spec_mm1n_p0 lmbda mu N * (Nat.descFactorial N n : ℚ) * (lmbda / mu) ^ n

/-- `src/formulas.py::Mm1n` — the second implementation of the same
M/M/1/N model in this repository (constructor checks plus the `mm1n`
method); returns `(p0, l, lq, w, wq, lam_efetiva)`.  Its `p0` sum uses
`factorial(N) / factorial(N - n)`, i.e. the falling factorial. -/
structure FormulasMm1n where
  p0 : ℚ
  l : ℚ
  lq : ℚ
  w : ℚ
  wq : ℚ
  lam_eff : ℚ
deriving DecidableEq, Repr

/-- `src/formulas.py::Mm1n.mm1n` (the `__init__` check `mi == 0` is the only
raise; the divisions by `lam_por_cliente` and `soma_p0` match the source on
every reachable state with `lam > 0`, and `w`/`wq` are guarded by
`lam_efetiva != 0` in the source). -/
def Mm1n_mm1n (lam mi : ℚ) (nPop : ℕ) : Except PyErr FormulasMm1n := do
  if mi = 0 then throw .muNonPos
  let r := lam / mi
  let soma := ((List.range (nPop + 1)).map fun k =>
    ((Nat.factorial nPop : ℚ) / (Nat.factorial (nPop - k) : ℚ)) * r ^ k).sum
  let p0 := 1 / soma
  let l := (nPop : ℚ) - (mi / lam) * (1 - p0)
  let lq := (nPop : ℚ) - ((lam + mi) / lam) * (1 - p0)
  let lamEff := lam * ((nPop : ℚ) - l)
  let w := if lamEff ≠ 0 then l / lamEff else 0
  let wq := if lamEff ≠ 0 then lq / lamEff else 0
  return { p0 := p0, l := l, lq := lq, w := w, wq := wq, lam_eff := lamEff }

/-- `src/modelos/mm1k.py::mm1k` with the optional query `n` (`t` is accepted
but ignored by the source).  The `rho == 1` detection of the source is the
float tolerance `abs(rho - 1.0) < 1e-8`, kept as the exact rational test.
The divisions of the `else` branch (by `1 - rho^(K+1)` and
`(1-rho)*(1-rho^(K+1))`) are unguarded in the source, so they are modelled
with `pdiv`. -/
def mm1k (lmbda mu : ℚ) (K : ℕ) (n : Option ℕ) : Except PyErr FiniteMetrics := do
  if lmbda < 0 then throw .lambdaNeg
  if mu ≤ 0 then throw .muNonPos
  if lmbda = 0 then
    let pn ← match n with
      | none => pure none
      | some nv => pure (some (if nv = 0 then (1 : ℚ) else 0))
    return { rho := 0, p0 := 1, L := 0, Lq := 0, W := 0, Wq := 0,
             lambda_eff := 0, pK := 0, L_operational := 0, p_any_idle := 0,
             pn := pn }
  let rho := lmbda / mu
  if |rho - 1| < 1 / 100000000 then
    let p0 := 1 / ((K : ℚ) + 1)
    let pnF : ℕ → Except PyErr ℚ := fun nv =>
      if K < nv then throw .nOutOfRange else pure p0
    let L := (K : ℚ) / 2
    let pK ← pnF K
    let lambdaEff := lmbda * (1 - pK)
    let Lq := L - (1 - p0)
    let W := if 0 < lambdaEff then L / lambdaEff else 0
    let Wq := if 0 < lambdaEff then Lq / lambdaEff else 0
    let pn ← match n with
      | none => pure none
      | some nv => do pure (some (← pnF nv))
    return { rho := rho, p0 := p0, L := L, Lq := Lq, W := W, Wq := Wq,
             lambda_eff := lambdaEff, pK := pK, L_operational := 0,
             p_any_idle := 0, pn := pn }
  else
    let p0 ← pdiv (1 - rho) (1 - rho ^ (K + 1))
    let pnF : ℕ → Except PyErr ℚ := fun nv =>
      if K < nv then throw .nOutOfRange else pure (p0 * rho ^ nv)
    let L ← pdiv (rho * (1 - ((K : ℚ) + 1) * rho ^ K + (K : ℚ) * rho ^ (K + 1)))
      ((1 - rho) * (1 - rho ^ (K + 1)))
    let pK ← pnF K
    let lambdaEff := lmbda * (1 - pK)
    let Lq := L - (1 - p0)
    let W := if 0 < lambdaEff then L / lambdaEff else 0
    let Wq := if 0 < lambdaEff then Lq / lambdaEff else 0
    let pn ← match n with
      | none => pure none
      | some nv => do pure (some (← pnF nv))
    return { rho := rho, p0 := p0, L := L, Lq := Lq, W := W, Wq := Wq,
             lambda_eff := lambdaEff, pK := pK, L_operational := 0,
             p_any_idle := 0, pn := pn }

/-- `src/modelos/mmsk.py::mmsk` with the optional query `n` (`t` accepted but
unused).  `sum1` runs over `range(s+1)` (note: through `n = s` inclusive)
and `sum2` over `range(s+1, K+1)`.  The `rho == 1` rejection uses the float
tolerance `abs(1 - rho) < 1e-10` of the source.  All divisions have nonzero
denominators on every reachable state (`mu > 0`, `s ≥ 1`, factorials,
`p0`-denominator ≥ 1, `(1-rho)^2 ≠ 0` past the tolerance check). -/
def mmsk (lmbda mu : ℚ) (s K : ℕ) (n : Option ℕ) : Except PyErr FiniteMetrics := do
  if lmbda < 0 then throw .lambdaNeg
  if mu ≤ 0 then throw .muNonPos
  if s = 0 then throw .sNonPos
  if K < s then throw .kLessS
  if lmbda = 0 then
    let pn ← match n with
      | none => pure none
      | some nv => pure (some (if nv = 0 then (1 : ℚ) else 0))
    return { rho := 0, p0 := 1, L := 0, Lq := 0, W := 0, Wq := 0,
             lambda_eff := 0, pK := 0, L_operational := 0, p_any_idle := 0,
             pn := pn }
  let rho := lmbda / ((s : ℚ) * mu)
  let a := lmbda / mu
  let sum1 := ((List.range (s + 1)).map fun j => a ^ j / (Nat.factorial j : ℚ)).sum
  let sum2 := ((List.range (K - s)).map fun j =>
    a ^ (s + 1 + j) / ((Nat.factorial s : ℚ) * (s : ℚ) ^ (j + 1))).sum
  let p0 := 1 / (sum1 + sum2)
  let pnVal : ℕ → ℚ := fun nv =>
    if nv ≤ s then a ^ nv / (Nat.factorial nv : ℚ) * p0
    else a ^ nv / ((Nat.factorial s : ℚ) * (s : ℚ) ^ (nv - s)) * p0
  if |1 - rho| < 1 / 10000000000 then throw .rhoOneUnsupported
  let factor := p0 * a ^ s * rho / ((Nat.factorial s : ℚ) * (1 - rho) ^ 2)
  let tail := 1 - rho ^ (K - s) - ((K : ℚ) - (s : ℚ)) * (1 - rho) * rho ^ (K - s)
  let Lq := factor * tail
  let Lpartial := ((List.range s).map fun (nv : ℕ) => (nv : ℚ) * pnVal nv).sum
  let probBusy := 1 - ((List.range s).map fun nv => pnVal nv).sum
  let L := Lpartial + Lq + (s : ℚ) * probBusy
  let pK := pnVal K
  let lambdaEff := lmbda * (1 - pK)
  let W := if 0 < lambdaEff then L / lambdaEff else 0
  let Wq := if 0 < lambdaEff then Lq / lambdaEff else 0
  let pn ← match n with
    | none => pure none
    | some nv => if K < nv then throw .nOutOfRange else pure (some (pnVal nv))
  return { rho := rho, p0 := p0, L := L, Lq := Lq, W := W, Wq := Wq,
           lambda_eff := lambdaEff, pK := pK, L_operational := 0,
           p_any_idle := 0, pn := pn }

/-- Result tuple `(p0, pk, l, lq, w, wq, lam_efetiva)` of
`src/formulas.py::Mmsk.mmsk`. -/
structure FormulasMmsk where
  p0 : ℚ
  pk : ℚ
  l : ℚ
  lq : ℚ
  w : ℚ
  wq : ℚ
  lam_eff : ℚ
deriving DecidableEq, Repr

/-- `src/formulas.py::Mmsk` — constructor checks (`K < s`, `mi == 0`) plus
the `mmsk` method.  Unlike `modelos/mmsk.py`, the `rho == 1` case is an
exact comparison and is supported by dedicated closed forms for the
geometric sum of `p0` and for `lq`. -/
def Mmsk_mmsk (lam mi : ℚ) (s k : ℕ) : Except PyErr FormulasMmsk := do
  if k < s then throw .kLessS
  if mi = 0 then throw .muNonPos
  let r := lam / mi
  let rho := lam / ((s : ℚ) * mi)
  let soma1 := ((List.range s).map fun j => r ^ j / (Nat.factorial j : ℚ)).sum
  let geo := if rho = 1 then ((k - s + 1 : ℕ) : ℚ)
    else (1 - rho ^ (k - s + 1)) / (1 - rho)
  let termoS := (r ^ s / (Nat.factorial s : ℚ)) * geo
  let p0 := 1 / (soma1 + termoS)
  let pk := (r ^ k / ((Nat.factorial s : ℚ) * (s : ℚ) ^ (k - s))) * p0
  let lq := if rho = 1 then
      (p0 * r ^ s / (Nat.factorial s : ℚ)) * ((((k - s : ℕ) : ℚ) * ((k - s + 1 : ℕ) : ℚ)) / 2)
    else
      (p0 * r ^ s * rho / ((Nat.factorial s : ℚ) * (1 - rho) ^ 2)) *
        (1 - rho ^ (k - s) - ((k - s : ℕ) : ℚ) * rho ^ (k - s) * (1 - rho))
  let lamEff := lam * (1 - pk)
  let wq := if lamEff ≠ 0 then lq / lamEff else 0
  let w := wq + 1 / mi
  let l := lamEff * w
  return { p0 := p0, pk := pk, l := l, lq := lq, w := w, wq := wq, lam_eff := lamEff }

/-- Product `products[i] = Π_{j=1}^{i} alpha[j]` of `src/modelos/mmsn.py`,
with `alpha[j] = lambdas[j-1] / mus[j] = (N-(j-1))·λ / (min(j,s)·μ)`.  The
denominator `min(j,s)·μ` is nonzero on every reachable call (`j ≥ 1`,
`s ≥ 1`, `mu > 0` already validated). -/
def mmsnProds (lmbda mu : ℚ) (s N : ℕ) : ℕ → ℚ
  | 0 => 1
  | i + 1 => mmsnProds lmbda mu s N i *
      ((((N - i : ℕ) : ℚ) * lmbda) / ((min (i + 1) s : ℕ) * mu))

/-- `src/modelos/mmsn.py::mmsn` with the optional query `n`.  Note the
source performs no `N ≥ s` check.  The division defining `p0` is modelled
with `pdiv` (its denominator is a sum of products). -/
def mmsn (lmbda mu : ℚ) (s N : ℕ) (n : Option ℕ) : Except PyErr FiniteMetrics := do
  if lmbda < 0 then throw .lambdaNeg
  if mu ≤ 0 then throw .muNonPos
  if s = 0 then throw .sNonPos
  if N = 0 then
    let pn ← match n with
      | none => pure none
      | some nv => pure (some (if nv = 0 then (1 : ℚ) else 0))
    return { rho := 0, p0 := 1, L := 0, Lq := 0, W := 0, Wq := 0,
             lambda_eff := 0, pK := 0, L_operational := 0, p_any_idle := 1,
             pn := pn }
  let prods := mmsnProds lmbda mu s N
  let denom := ((List.range (N + 1)).map fun i => prods i).sum
  let p0 ← pdiv 1 denom
  let p : ℕ → ℚ := fun i => p0 * prods i
  let L := ((List.range (N + 1)).map fun (i : ℕ) => (i : ℚ) * p i).sum
  let busy := ((List.range (N + 1)).map fun (i : ℕ) => ((min i s : ℕ) : ℚ) * p i).sum
  let Lq := L - busy
  let lambdaEff := lmbda * ((N : ℚ) - L)
  let W := if 0 < lambdaEff then L / lambdaEff else 0
  let Wq := if 0 < lambdaEff then Lq / lambdaEff else 0
  let rho := busy / (s : ℚ)
  let probIdle := ((List.range (min s (N + 1))).map fun i => p i).sum
  let pn ← match n with
    | none => pure none
    | some nv => if N < nv then throw .nOutOfRange else pure (some (p nv))
  return { rho := rho, p0 := p0, L := L, Lq := Lq, W := W, Wq := Wq,
           lambda_eff := lambdaEff, pK := 0, L_operational := (N : ℚ) - L,
           p_any_idle := probIdle, pn := pn }

/-- Closed form of the success branch of `mm1` (all `let`s of the source
substituted), used to state the success lemma `mm1_ok`. -/
def mm1Closed (lmbda mu : ℚ) : SCMetrics :=
  { rho := lmbda / mu
    p0 := 1 - lmbda / mu
    L := (lmbda / mu) / (1 - lmbda / mu)
    Lq := (lmbda / mu) ^ 2 / (1 - lmbda / mu)
    W := (lmbda / mu) / (1 - lmbda / mu) / lmbda
    Wq := (lmbda / mu) ^ 2 / (1 - lmbda / mu) / lmbda }

/-- Closed form of the success branch of `mms` (all `let`s of the source
substituted), used to state the success lemma `mms_ok`. -/
def mmsClosed (lmbda mu : ℚ) (s : ℕ) : SCMetrics :=
  let rho := lmbda / ((s : ℚ) * mu)
  let a := lmbda / mu
  let p0 := 1 / (powFactSum a s + a ^ s / ((Nat.factorial s : ℚ) * (1 - rho)))
  let Lq := p0 * a ^ s * rho / ((Nat.factorial s : ℚ) * (1 - rho) ^ 2)
  { rho := rho, p0 := p0, L := Lq + a, Lq := Lq,
    W := (Lq + a) / lmbda, Wq := Lq / lmbda }

/-- Closed form of the waiting probability returned by `erlang_c` on its
success branch. -/
def erlangClosed (lmbda mu : ℚ) (s : ℕ) : ℚ :=
  let rho := lmbda / ((s : ℚ) * mu)
  let a := lmbda / mu
  let last_term := a ^ s / ((Nat.factorial s : ℚ) * (1 - rho))
  last_term * (1 / (powFactSum a s + last_term))

/-- Whether an engine error message names an offending class index: exactly
the per-class rejections (`unstableClass k`, message `A subfila ate a classe
k ...`) and the negative-rate rejection carry a class index; in particular
the aggregate pre-flight rejection of `validate_common_inputs` does not. -/
def namesClassIndex : PyErr → Bool
  | .unstableClass _ => true
  | .negLambdaClass _ => true
  | _ => false

/-! ### Helper lemmas -/

theorem powFactSum_nonneg (a : ℚ) (ha : 0 ≤ a) : ∀ s : ℕ, 0 ≤ powFactSum a s
  | 0 => le_refl 0
  | n + 1 => by
    have h1 := powFactSum_nonneg a ha n
    have h2 : (0 : ℚ) ≤ a ^ n / (Nat.factorial n : ℚ) :=
      div_nonneg (pow_nonneg ha n) (by positivity)
    simpa [powFactSum] using add_nonneg h1 h2

theorem one_le_powFactSum (a : ℚ) (ha : 0 ≤ a) :
    ∀ s : ℕ, 1 ≤ s → 1 ≤ powFactSum a s
  | 1, _ => by norm_num [powFactSum]
  | n + 2, _ => by
    have h1 := one_le_powFactSum a ha (n + 1) (by omega)
    have h2 : (0 : ℚ) ≤ a ^ (n + 1) / (Nat.factorial (n + 1) : ℚ) :=
      div_nonneg (pow_nonneg ha _) (by positivity)
    calc (1 : ℚ) ≤ powFactSum a (n + 1) := h1
      _ ≤ powFactSum a (n + 1) + a ^ (n + 1) / (Nat.factorial (n + 1) : ℚ) := le_add_of_nonneg_right h2
      _ = powFactSum a (n + 2) := rfl

theorem coerceScan_ok (rates : List ℚ) (hnn : ∀ r ∈ rates, 0 ≤ r) :
    ∀ idx : ℕ, coerceScan rates idx = .ok () := by
  induction rates with
  | nil => intro idx; rfl
  | cons r rest ih =>
      intro idx
      have hr : ¬ r < 0 := not_lt.2 (hnn r (List.mem_cons_self r rest))
      have hrest : ∀ x ∈ rest, 0 ≤ x := fun x hx => hnn x (List.mem_cons_of_mem r hx)
      simp [coerceScan, hr, ih hrest]

/-- On a nonempty list of nonnegative rates with `mu > 0`, `s ≥ 1` and
`sum < s*mu`, `validate_common_inputs` returns the rates unchanged. -/
theorem validate_ok (rates : List ℚ) (mu : ℚ) (s : ℕ)
    (hne : rates ≠ []) (hnn : ∀ r ∈ rates, 0 ≤ r) (hmu : 0 < mu) (hs : s ≠ 0)
    (hlt : rates.sum < (s : ℚ) * mu) :
    validate_common_inputs rates mu s = .ok rates := by
  simp [validate_common_inputs, coerce_arrival_rates, hne, coerceScan_ok rates hnn 1,
    not_le.2 hmu, hs, not_le.2 hlt, Bind.bind, Except.bind, Pure.pure, Except.pure]

/-- On a nonempty list of nonnegative rates with `mu > 0`, `s ≥ 1` and
`sum ≥ s*mu`, `validate_common_inputs` raises the aggregate instability
rejection (whose message reports the total rate, not a class index). -/
theorem validate_err (rates : List ℚ) (mu : ℚ) (s : ℕ)
    (hne : rates ≠ []) (hnn : ∀ r ∈ rates, 0 ≤ r) (hmu : 0 < mu) (hs : s ≠ 0)
    (hge : (s : ℚ) * mu ≤ rates.sum) :
    validate_common_inputs rates mu s = .error .unstableAggregate := by
  have hcap : (0 : ℚ) < (s : ℚ) * mu := by
    have : (1 : ℚ) ≤ (s : ℚ) := by exact_mod_cast Nat.one_le_iff_ne_zero.2 hs
    nlinarith
  simp [validate_common_inputs, coerce_arrival_rates, hne, coerceScan_ok rates hnn 1,
    not_le.2 hmu, hs, hge, hcap, Bind.bind, Except.bind, Pure.pure, Except.pure]

/-- Success behaviour of `mm1` for `0 < lmbda < mu`. -/
theorem mm1_ok (lmbda mu : ℚ) (h0 : 0 < lmbda) (hlt : lmbda < mu) :
    mm1 lmbda mu = .ok (mm1Closed lmbda mu) := by
  have hmu : 0 < mu := h0.trans hlt
  have hrho : lmbda / mu < 1 := (div_lt_one hmu).2 hlt
  simp [mm1, mm1Closed, pdiv, not_lt.2 h0.le, not_le.2 hmu, not_le.2 hrho, h0.ne',
    Bind.bind, Except.bind, Pure.pure, Except.pure]

/-- Success behaviour of `mms` for `0 < lmbda < s*mu`. -/
theorem mms_ok (lmbda mu : ℚ) (s : ℕ) (h0 : 0 < lmbda) (hmu : 0 < mu) (hs : s ≠ 0)
    (hlt : lmbda < (s : ℚ) * mu) :
    mms lmbda mu s = .ok (mmsClosed lmbda mu s) := by
  have hcap : (0 : ℚ) < (s : ℚ) * mu := h0.trans hlt
  have hrho : lmbda / ((s : ℚ) * mu) < 1 := (div_lt_one hcap).2 hlt
  simp [mms, mmsClosed, not_lt.2 h0.le, not_le.2 hmu, hs, h0.ne', not_le.2 hrho,
    Bind.bind, Except.bind, Pure.pure, Except.pure]

/-- Success behaviour of `erlang_c` for `0 < lmbda < s*mu`, `mu > 0`. -/
theorem erlang_c_ok (lmbda mu : ℚ) (s : ℕ) (h0 : 0 < lmbda) (hmu : 0 < mu) (hs : s ≠ 0)
    (hlt : lmbda < (s : ℚ) * mu) :
    erlang_c lmbda mu s = .ok (erlangClosed lmbda mu s) := by
  have hcap : (0 : ℚ) < (s : ℚ) * mu := h0.trans hlt
  have hrho : lmbda / ((s : ℚ) * mu) < 1 := (div_lt_one hcap).2 hlt
  simp [erlang_c, erlangClosed, pdiv, not_le.2 h0, hcap.ne', not_le.2 hrho,
    Bind.bind, Except.bind, Pure.pure, Except.pure]

/-- Instability behaviour of `erlang_c`: for `0 < mu`, `s ≥ 1` and
`lmbda ≥ s*mu` it raises its instability rejection. -/
theorem erlang_c_err (lmbda mu : ℚ) (s : ℕ) (hmu : 0 < mu) (hs : s ≠ 0)
    (hge : (s : ℚ) * mu ≤ lmbda) :
    erlang_c lmbda mu s = .error .erlangUnstable := by
  have hs1 : (1 : ℚ) ≤ (s : ℚ) := by exact_mod_cast Nat.one_le_iff_ne_zero.2 hs
  have hcap : (0 : ℚ) < (s : ℚ) * mu := by nlinarith
  have h0 : 0 < lmbda := lt_of_lt_of_le hcap hge
  have hrho : 1 ≤ lmbda / ((s : ℚ) * mu) := (one_le_div hcap).2 hge
  simp [erlang_c, pdiv, not_le.2 h0, hcap.ne', hrho,
    Bind.bind, Except.bind, Pure.pure, Except.pure]

/-- Invariant of the preemptive `s = 1` loop: starting from already-consumed
cumulative rate `prev`, on nonnegative remaining rates whose grand total
stays below `mu`, the loop succeeds; each produced class `k` carries
`W = mu / ((mu - R_{k-1}) * (mu - R_k))` and `Wq = W - 1/mu` (the `max` of
the source is inactive because `W ≥ 1/mu`), and the running totals are the
telescoped sums `Σ λ·W` and `Σ λ·Wq`. -/
theorem preLoop_ok (mu : ℚ) :
    ∀ (rest : List ℚ) (idx : ℕ) (prev : ℚ),
    (∀ r ∈ rest, 0 ≤ r) → 0 ≤ prev → prev + rest.sum < mu →
    ∃ cls totL totLq,
      preLoop mu rest idx prev = .ok (cls, totL, totLq) ∧
      cls.length = rest.length ∧
      (∀ k (h : k < cls.length),
        (cls.get ⟨k, h⟩).W =
          mu / ((mu - (prev + (rest.take k).sum)) * (mu - (prev + (rest.take (k + 1)).sum))) ∧
        (cls.get ⟨k, h⟩).Wq = (cls.get ⟨k, h⟩).W - 1 / mu) ∧
      totL = mu / (mu - (prev + rest.sum)) - mu / (mu - prev) ∧
      totLq = totL - rest.sum / mu := by
  intro rest
  induction rest with
  | nil =>
      intro idx prev _ _ _
      exact ⟨[], 0, 0, rfl, rfl, fun k h => absurd h (by simp), by simp, by simp⟩
  | cons lam rest ih =>
      intro idx prev hnn hprev hsum
      have hlam : 0 ≤ lam := hnn lam (List.mem_cons_self lam rest)
      have hrest : ∀ r ∈ rest, 0 ≤ r := fun r hr => hnn r (List.mem_cons_of_mem lam hr)
      have hrsum : 0 ≤ rest.sum := List.sum_nonneg hrest
      have hsum' : prev + lam + rest.sum < mu := by
        simpa [add_assoc] using hsum
      have hcum : 0 ≤ prev + lam := add_nonneg hprev hlam
      have hmu : 0 < mu := lt_of_le_of_lt (by linarith) hsum'
      have hdp : 0 < mu - prev := by linarith
      have hdc : 0 < mu - (prev + lam) := by linarith
      have hg : ¬ (mu - prev ≤ 0 ∨ mu - (prev + lam) ≤ 0) := by
        push_neg; exact ⟨hdp, hdc⟩
      have hWge : 1 / mu ≤ mu / ((mu - prev) * (mu - (prev + lam))) := by
        rw [div_le_div_iff hmu (mul_pos hdp hdc)]
        nlinarith
      have hmax : max (mu / ((mu - prev) * (mu - (prev + lam))) - 1 / mu) 0 =
          mu / ((mu - prev) * (mu - (prev + lam))) - 1 / mu :=
        max_eq_left (by linarith)
      obtain ⟨cls, totL, totLq, hok, hlen, hcls, hL, hLq⟩ :=
        ih (idx + 1) (prev + lam) hrest hcum hsum'
      refine
        ⟨{ priority := idx + 1, lam := lam, lam_cum := prev + lam, rho := lam / mu,
           W := mu / ((mu - prev) * (mu - (prev + lam))),
           Wq := max (mu / ((mu - prev) * (mu - (prev + lam))) - 1 / mu) 0,
           L := (prev + lam) * (mu / ((mu - prev) * (mu - (prev + lam)))),
           Lq := (prev + lam) * (mu / ((mu - prev) * (mu - (prev + lam)))) - (prev + lam) / mu,
           L_class := lam * (mu / ((mu - prev) * (mu - (prev + lam)))),
           Lq_class := lam * max (mu / ((mu - prev) * (mu - (prev + lam))) - 1 / mu) 0,
           pwait := 0, base_factor := 0 } :: cls,
         lam * (mu / ((mu - prev) * (mu - (prev + lam)))) + totL,
         lam * max (mu / ((mu - prev) * (mu - (prev + lam))) - 1 / mu) 0 + totLq,
         ?_, ?_, ?_, ?_, ?_⟩
      · show preLoop mu (lam :: rest) idx prev = _
        simp only [preLoop, hg, if_false, hok,
          Bind.bind, Except.bind, Pure.pure, Except.pure]
      · simpa using hlen
      · intro k h
        match k with
        | 0 =>
            constructor
            · show mu / ((mu - prev) * (mu - (prev + lam))) = _
              norm_num
            · show max (mu / ((mu - prev) * (mu - (prev + lam))) - 1 / mu) 0 = _
              rw [hmax]
              norm_num
        | k + 1 =>
            have hk : k < cls.length := by simpa using h
            obtain ⟨hW, hWq⟩ := hcls k hk
            constructor
            · show (cls.get ⟨k, hk⟩).W = _
              rw [hW, List.take_succ_cons, List.take_succ_cons]
              simp [add_assoc]
            · show (cls.get ⟨k, hk⟩).Wq = (cls.get ⟨k, hk⟩).W - 1 / mu
              exact hWq
      · have hstep : lam * (mu / ((mu - prev) * (mu - (prev + lam)))) =
            mu / (mu - (prev + lam)) - mu / (mu - prev) := by
          field_simp
          ring
        rw [hL, hstep]
        have h3 : prev + (lam :: rest).sum = prev + lam + rest.sum := by
          simp [add_assoc]
        rw [h3]
        ring
      · rw [hmax, hLq, hL]
        have hstep : lam * (mu / ((mu - prev) * (mu - (prev + lam)))) =
            mu / (mu - (prev + lam)) - mu / (mu - prev) := by
          field_simp
          ring
        have h4 : (lam :: rest).sum = lam + rest.sum := by simp
        rw [h4]
        ring

/-- Success behaviour of `mm1_priority_preemptive` on nonnegative rates with
`0 < Σλ < mu`: the aggregate record in closed (telescoped) form together
with the per-class waiting-time formulas. -/
theorem mm1_priority_preemptive_eq (rates : List ℚ) (mu : ℚ)
    (hnn : ∀ r ∈ rates, 0 ≤ r) (hpos : 0 < rates.sum) (hlt : rates.sum < mu) :
    ∃ cls, mm1_priority_preemptive rates mu = .ok
      { rho := rates.sum / mu, p0 := 1 - rates.sum / mu,
        L := mu / (mu - rates.sum) - 1,
        Lq := mu / (mu - rates.sum) - 1 - rates.sum / mu,
        W := (mu / (mu - rates.sum) - 1) / rates.sum,
        Wq := (mu / (mu - rates.sum) - 1 - rates.sum / mu) / rates.sum,
        per_class := cls, lambda_total := rates.sum,
        service_in_progress := rates.sum / mu } ∧
      cls.length = rates.length ∧
      ∀ k (h : k < cls.length),
        (cls.get ⟨k, h⟩).W =
          mu / ((mu - (rates.take k).sum) * (mu - (rates.take (k + 1)).sum)) ∧
        (cls.get ⟨k, h⟩).Wq = (cls.get ⟨k, h⟩).W - 1 / mu := by
  have hmu : 0 < mu := hpos.trans hlt
  have hne : rates ≠ [] := by
    intro h
    rw [h] at hpos
    simp at hpos
  have hval : validate_common_inputs rates mu 1 = .ok rates :=
    validate_ok rates mu 1 hne hnn hmu one_ne_zero (by simpa using hlt)
  obtain ⟨cls, totL, totLq, hok, hlen, hcls, hL, hLq⟩ :=
    preLoop_ok mu rates 0 0 hnn le_rfl (by simpa using hlt)
  have hmuself : mu / (mu - 0) = 1 := by
    rw [sub_zero]
    exact div_self hmu.ne'
  have hL' : totL = mu / (mu - rates.sum) - 1 := by
    rw [hL, hmuself]
    norm_num
  have hLq' : totLq = mu / (mu - rates.sum) - 1 - rates.sum / mu := by
    rw [hLq, hL']
  have hrho : rates.sum / mu < 1 := (div_lt_one hmu).2 hlt
  refine ⟨cls, ?_, ?_, ?_⟩
  · simp only [mm1_priority_preemptive, hval, hok, hL', hLq',
      Bind.bind, Except.bind, Pure.pure, Except.pure]
    simp [hpos.ne', hpos, not_le.2 hrho]
  · simpa using hlen
  · intro k h
    have := hcls k h
    simpa using this

/-- Claim C1: for the preemptive-resume priority engine with `s = 1`, for
every list of arrival rates `λ₁..λₘ ≥ 0` and `mu > 0` with every cumulative
Rₖ strictly below `mu` and `Σλ > 0`, the per-class entry `k` returned by
`mm1_priority_preemptive` has `W = mu / ((mu - R_{k-1}) * (mu - R_k))`
(with `R₀ = 0`) and `Wq = W - 1/mu`. -/
theorem C1_preemptive_per_class (rates : List ℚ) (mu : ℚ)
    (hnn : ∀ r ∈ rates, 0 ≤ r) (hmu : 0 < mu)
    (hpfx : ∀ k, k < rates.length → (rates.take (k + 1)).sum < mu)
    (hpos : 0 < rates.sum) :
    ∃ res, mm1_priority_preemptive rates mu = .ok res ∧
      res.per_class.length = rates.length ∧
      ∀ k (h : k < res.per_class.length),
        (res.per_class.get ⟨k, h⟩).W =
          mu / ((mu - (rates.take k).sum) * (mu - (rates.take (k + 1)).sum)) ∧
        (res.per_class.get ⟨k, h⟩).Wq = (res.per_class.get ⟨k, h⟩).W - 1 / mu := by
  have hne : rates ≠ [] := by
    intro h
    rw [h] at hpos
    simp at hpos
  have hlen : 0 < rates.length := List.length_pos.2 hne
  have hlt : rates.sum < mu := by
    have h := hpfx (rates.length - 1) (by omega)
    rwa [Nat.sub_add_cancel hlen, List.take_length] at h
  obtain ⟨cls, heq, hclen, hcls⟩ := mm1_priority_preemptive_eq rates mu hnn hpos hlt
  exact ⟨_, heq, hclen, hcls⟩

/-- Witness for C1 at `rates = [1/2, 1/4]`, `mu = 2`. -/
theorem C1_witness :
    ∃ res, mm1_priority_preemptive [1/2, 1/4] 2 = .ok res ∧
      res.per_class.length = ([1/2, 1/4] : List ℚ).length ∧
      ∀ k (h : k < res.per_class.length),
        (res.per_class.get ⟨k, h⟩).W =
          2 / ((2 - (([1/2, 1/4] : List ℚ).take k).sum) *
            (2 - (([1/2, 1/4] : List ℚ).take (k + 1)).sum)) ∧
        (res.per_class.get ⟨k, h⟩).Wq = (res.per_class.get ⟨k, h⟩).W - 1 / 2 :=
  C1_preemptive_per_class [1/2, 1/4] 2
    (by intro r hr; simp [List.mem_cons] at hr; rcases hr with h | h <;> norm_num [h])
    (by norm_num)
    (by
      intro k hk
      simp only [List.length_cons, List.length_nil] at hk
      interval_cases k <;> norm_num)
    (by norm_num)

/-- Invariant of the non-preemptive `s = 1` loop: on nonnegative remaining
rates whose grand total stays below `mu`, the loop succeeds; class `k`
carries `Wq = total / ((mu - R_{k-1}) * (mu - R_k))`, `W = Wq + 1/mu`,
`L = λₖ·W`, `Lq = λₖ·Wq`, and the field sums telescope. -/
theorem nonPreLoop_ok (mu total : ℚ) :
    ∀ (rest : List ℚ) (idx : ℕ) (prev : ℚ),
    (∀ r ∈ rest, 0 ≤ r) → 0 ≤ prev → prev + rest.sum < mu →
    ∃ cls, nonPreLoop mu total rest idx prev = .ok cls ∧
      cls.length = rest.length ∧
      (∀ k (h : k < cls.length) (h' : k < rest.length),
        (cls.get ⟨k, h⟩).Wq =
          total / ((mu - (prev + (rest.take k).sum)) * (mu - (prev + (rest.take (k + 1)).sum))) ∧
        (cls.get ⟨k, h⟩).W = (cls.get ⟨k, h⟩).Wq + 1 / mu ∧
        (cls.get ⟨k, h⟩).lam = rest.get ⟨k, h'⟩ ∧
        (cls.get ⟨k, h⟩).L = (cls.get ⟨k, h⟩).lam * (cls.get ⟨k, h⟩).W ∧
        (cls.get ⟨k, h⟩).Lq = (cls.get ⟨k, h⟩).lam * (cls.get ⟨k, h⟩).Wq) ∧
      (cls.map ClassMetrics.lam).sum = rest.sum ∧
      (cls.map ClassMetrics.Lq).sum =
        total * (1 / (mu - (prev + rest.sum)) - 1 / (mu - prev)) ∧
      (cls.map ClassMetrics.L).sum =
        total * (1 / (mu - (prev + rest.sum)) - 1 / (mu - prev)) + rest.sum / mu := by
  intro rest
  induction rest with
  | nil =>
      intro idx prev _ _ _
      exact ⟨[], rfl, rfl, fun k h => absurd h (by simp), by simp, by simp, by simp⟩
  | cons lam rest ih =>
      intro idx prev hnn hprev hsum
      have hlam : 0 ≤ lam := hnn lam (List.mem_cons_self lam rest)
      have hrest : ∀ r ∈ rest, 0 ≤ r := fun r hr => hnn r (List.mem_cons_of_mem lam hr)
      have hrsum : 0 ≤ rest.sum := List.sum_nonneg hrest
      have hsum' : prev + lam + rest.sum < mu := by
        simpa [add_assoc] using hsum
      have hcum : 0 ≤ prev + lam := add_nonneg hprev hlam
      have hmu : 0 < mu := lt_of_le_of_lt (by linarith) hsum'
      have hdp : 0 < mu - prev := by linarith
      have hdc : 0 < mu - (prev + lam) := by linarith
      have hg : ¬ (mu - (prev + lam) ≤ 0 ∨ mu - prev ≤ 0) := by
        push_neg
        exact ⟨hdc, hdp⟩
      obtain ⟨cls, hok, hlen, hcls, hlamS, hLqS, hLS⟩ :=
        ih (idx + 1) (prev + lam) hrest hcum hsum'
      refine
        ⟨{ priority := idx + 1, lam := lam, lam_cum := 0, rho := lam / mu,
           W := total / ((mu - prev) * (mu - (prev + lam))) + 1 / mu,
           Wq := total / ((mu - prev) * (mu - (prev + lam))),
           L := lam * (total / ((mu - prev) * (mu - (prev + lam))) + 1 / mu),
           Lq := lam * (total / ((mu - prev) * (mu - (prev + lam)))),
           L_class := 0, Lq_class := 0, pwait := 0, base_factor := 0 } :: cls,
         ?_, ?_, ?_, ?_, ?_, ?_⟩
      · show nonPreLoop mu total (lam :: rest) idx prev = _
        simp only [nonPreLoop, hg, if_false, hok,
          Bind.bind, Except.bind, Pure.pure, Except.pure]
      · simpa using hlen
      · intro k h h'
        match k with
        | 0 => refine ⟨by norm_num, rfl, rfl, rfl, rfl⟩
        | k + 1 =>
            have hk : k < cls.length := by simpa using h
            have hk' : k < rest.length := by simpa using h'
            obtain ⟨hWq, hW, hlamf, hLf, hLqf⟩ := hcls k hk hk'
            refine ⟨?_, hW, ?_, hLf, hLqf⟩
            · show (cls.get ⟨k, hk⟩).Wq = _
              rw [hWq, List.take_succ_cons, List.take_succ_cons]
              simp [add_assoc]
            · show (cls.get ⟨k, hk⟩).lam = _
              rw [hlamf]
              rfl
      · simp only [List.map_cons, List.sum_cons, hlamS, List.sum_cons]
      · simp only [List.map_cons, List.sum_cons, hLqS]
        have hstep : lam * (total / ((mu - prev) * (mu - (prev + lam)))) =
            total * (1 / (mu - (prev + lam)) - 1 / (mu - prev)) := by
          field_simp
          ring
        rw [hstep, ← add_assoc]
        ring
      · simp only [List.map_cons, List.sum_cons, hLS]
        have hstep : lam * (total / ((mu - prev) * (mu - (prev + lam))) + 1 / mu) =
            total * (1 / (mu - (prev + lam)) - 1 / (mu - prev)) + lam / mu := by
          field_simp
          ring
        rw [hstep, ← add_assoc]
        ring

/-- Sum of a list prefix is at most the full sum, for nonnegative entries. -/
theorem take_sum_le (l : List ℚ) (hnn : ∀ r ∈ l, 0 ≤ r) (n : ℕ) :
    (l.take n).sum ≤ l.sum := by
  have h1 := List.sum_take_add_sum_drop l n
  have h2 : 0 ≤ (l.drop n).sum :=
    List.sum_nonneg (fun x hx => hnn x (List.mem_of_mem_drop hx))
  linarith

/-- Sum of a list prefix is nonnegative, for nonnegative entries. -/
theorem take_sum_nonneg (l : List ℚ) (hnn : ∀ r ∈ l, 0 ≤ r) (n : ℕ) :
    0 ≤ (l.take n).sum :=
  List.sum_nonneg (fun x hx => hnn x (List.mem_of_mem_take hx))

/-- Success behaviour of `mm1_priority_non_preemptive` on nonnegative rates
with `0 < Σλ < mu`: the aggregate record in closed (telescoped) form
together with the per-class formulas. -/
theorem mm1_priority_non_preemptive_eq (rates : List ℚ) (mu : ℚ)
    (hnn : ∀ r ∈ rates, 0 ≤ r) (hpos : 0 < rates.sum) (hlt : rates.sum < mu) :
    ∃ cls, mm1_priority_non_preemptive rates mu = .ok
      { rho := rates.sum / mu, p0 := 1 - rates.sum / mu,
        L := rates.sum * (1 / (mu - rates.sum) - 1 / mu) + rates.sum / mu,
        Lq := rates.sum * (1 / (mu - rates.sum) - 1 / mu),
        W := (rates.sum * (1 / (mu - rates.sum) - 1 / mu) + rates.sum / mu) / rates.sum,
        Wq := rates.sum * (1 / (mu - rates.sum) - 1 / mu) / rates.sum,
        per_class := cls, lambda_total := rates.sum,
        service_in_progress := rates.sum / mu } ∧
      cls.length = rates.length ∧
      ∀ k (h : k < cls.length) (h' : k < rates.length),
        (cls.get ⟨k, h⟩).Wq =
          rates.sum / ((mu - (rates.take k).sum) * (mu - (rates.take (k + 1)).sum)) ∧
        (cls.get ⟨k, h⟩).W = (cls.get ⟨k, h⟩).Wq + 1 / mu ∧
        (cls.get ⟨k, h⟩).lam = rates.get ⟨k, h'⟩ ∧
        (cls.get ⟨k, h⟩).L = (cls.get ⟨k, h⟩).lam * (cls.get ⟨k, h⟩).W ∧
        (cls.get ⟨k, h⟩).Lq = (cls.get ⟨k, h⟩).lam * (cls.get ⟨k, h⟩).Wq := by
  have hmu : 0 < mu := hpos.trans hlt
  have hne : rates ≠ [] := by
    intro h
    rw [h] at hpos
    simp at hpos
  have hval : validate_common_inputs rates mu 1 = .ok rates :=
    validate_ok rates mu 1 hne hnn hmu one_ne_zero (by simpa using hlt)
  obtain ⟨cls, hok, hlen, hcls, hlamS, hLqS, hLS⟩ :=
    nonPreLoop_ok mu rates.sum rates 0 0 hnn le_rfl (by simpa using hlt)
  refine ⟨cls, ?_, by simpa using hlen, fun k h h' => by
    have := hcls k h h'
    simpa using this⟩
  have hLqS' : (cls.map ClassMetrics.Lq).sum =
      rates.sum * (1 / (mu - rates.sum) - 1 / mu) := by
    simpa using hLqS
  have hLS' : (cls.map ClassMetrics.L).sum =
      rates.sum * (1 / (mu - rates.sum) - 1 / mu) + rates.sum / mu := by
    simpa using hLS
  simp only [mm1_priority_non_preemptive, hval, hok, hpos.ne',
    Bind.bind, Except.bind, Pure.pure, Except.pure, if_false]
  simp [aggregate_totals, hlamS, hLqS', hLS', hmu, hpos, hpos.ne']

/-- Claim C2: for the non-preemptive (head-of-line) priority engine with
`s = 1` and a shared exponential service distribution with rate `mu`
(`E[S²] = 2/mu²`): for every nonnegative rates list with
`λ_total = Σλ ∈ (0, mu)`, the per-class entry `k` of
`mm1_priority_non_preemptive` has
`Wq = A / (2·(1 - R_{k-1}/mu)·(1 - R_k/mu))` with `A = λ_total·E[S²]`,
`W = Wq + 1/mu`, `L = λₖ·W` and `Lq = λₖ·Wq`. -/
theorem C2_non_preemptive_per_class (rates : List ℚ) (mu : ℚ)
    (hnn : ∀ r ∈ rates, 0 ≤ r) (hpos : 0 < rates.sum) (hlt : rates.sum < mu) :
    ∃ res, mm1_priority_non_preemptive rates mu = .ok res ∧
      res.per_class.length = rates.length ∧
      ∀ k (h : k < res.per_class.length) (h' : k < rates.length),
        (res.per_class.get ⟨k, h⟩).Wq =
          rates.sum * (2 / mu ^ 2) /
            (2 * (1 - (rates.take k).sum / mu) * (1 - (rates.take (k + 1)).sum / mu)) ∧
        (res.per_class.get ⟨k, h⟩).W = (res.per_class.get ⟨k, h⟩).Wq + 1 / mu ∧
        (res.per_class.get ⟨k, h⟩).L = rates.get ⟨k, h'⟩ * (res.per_class.get ⟨k, h⟩).W ∧
        (res.per_class.get ⟨k, h⟩).Lq = rates.get ⟨k, h'⟩ * (res.per_class.get ⟨k, h⟩).Wq := by
  have hmu : 0 < mu := hpos.trans hlt
  obtain ⟨cls, heq, hlen, hcls⟩ := mm1_priority_non_preemptive_eq rates mu hnn hpos hlt
  refine ⟨_, heq, hlen, ?_⟩
  intro k h h'
  obtain ⟨hWq, hW, hlamf, hLf, hLqf⟩ := hcls k h h'
  have hpk : 0 < mu - (rates.take k).sum := by
    have h1 := take_sum_le rates hnn k
    linarith
  have hpk1 : 0 < mu - (rates.take (k + 1)).sum := by
    have h1 := take_sum_le rates hnn (k + 1)
    linarith
  refine ⟨?_, hW, by rw [hLf, hlamf], by rw [hLqf, hlamf]⟩
  rw [hWq]
  rw [div_eq_div_iff (by positivity) (by
    have e1 : 1 - (rates.take k).sum / mu = (mu - (rates.take k).sum) / mu := by
      field_simp
    have e2 : 1 - (rates.take (k + 1)).sum / mu = (mu - (rates.take (k + 1)).sum) / mu := by
      field_simp
    rw [e1, e2]
    positivity)]
  field_simp
  ring

/-- Witness for C2 at `rates = [1/2, 1/4]`, `mu = 2`. -/
theorem C2_witness :
    ∃ res, mm1_priority_non_preemptive [1/2, 1/4] 2 = .ok res ∧
      res.per_class.length = ([1/2, 1/4] : List ℚ).length ∧
      ∀ k (h : k < res.per_class.length) (h' : k < ([1/2, 1/4] : List ℚ).length),
        (res.per_class.get ⟨k, h⟩).Wq =
          ([1/2, 1/4] : List ℚ).sum * (2 / (2 : ℚ) ^ 2) /
            (2 * (1 - (([1/2, 1/4] : List ℚ).take k).sum / 2) *
              (1 - (([1/2, 1/4] : List ℚ).take (k + 1)).sum / 2)) ∧
        (res.per_class.get ⟨k, h⟩).W = (res.per_class.get ⟨k, h⟩).Wq + 1 / 2 ∧
        (res.per_class.get ⟨k, h⟩).L =
          ([1/2, 1/4] : List ℚ).get ⟨k, h'⟩ * (res.per_class.get ⟨k, h⟩).W ∧
        (res.per_class.get ⟨k, h⟩).Lq =
          ([1/2, 1/4] : List ℚ).get ⟨k, h'⟩ * (res.per_class.get ⟨k, h⟩).Wq :=
  C2_non_preemptive_per_class [1/2, 1/4] 2
    (by intro r hr; simp [List.mem_cons] at hr; rcases hr with h | h <;> norm_num [h])
    (by norm_num)
    (by norm_num)

/-- Counterexample to claim C4 at `rates = [2]`, `mu = 1`: the prefix
`R₁ = 2` satisfies `mu - R₁ ≤ 0`, and both `s = 1` engines do raise an
instability error — but it is the aggregate pre-flight rejection of
`validate_common_inputs`, whose message reports the total rate and does not
name the offending class index. -/
theorem C4_counterexample :
    (1 : ℚ) - (([2] : List ℚ).take 1).sum ≤ 0 ∧
    mm1_priority_preemptive [2] 1 = .error .unstableAggregate ∧
    mm1_priority_non_preemptive [2] 1 = .error .unstableAggregate ∧
    namesClassIndex .unstableAggregate = false := by
  have hval : validate_common_inputs [2] 1 1 = .error .unstableAggregate :=
    validate_err [2] 1 1 (by simp)
      (by intro r hr; simp [List.mem_cons] at hr; norm_num [hr])
      one_pos one_ne_zero (by norm_num)
  refine ⟨by norm_num, ?_, ?_, rfl⟩
  · simp [mm1_priority_preemptive, hval, Bind.bind, Except.bind]
  · simp [mm1_priority_non_preemptive, hval, Bind.bind, Except.bind]

/-- Claim C4 as amended: for the `s = 1` priority engines, for every
nonnegative rates list and `mu > 0` such that some prefix `R_k` satisfies
`mu - R_k ≤ 0`, the call raises an instability error and returns no
metrics — but it is the aggregate pre-flight rejection (`lambda_total ≥
s·mu`), which does not name the offending class index: with nonnegative
rates an unstable prefix forces an unstable total, so the per-class
`unstableClass` rejection is unreachable in the `s = 1` engines. -/
theorem C4_amended_aggregate_error (rates : List ℚ) (mu : ℚ)
    (hnn : ∀ r ∈ rates, 0 ≤ r) (hmu : 0 < mu)
    (hbad : ∃ k, k < rates.length ∧ mu - (rates.take (k + 1)).sum ≤ 0) :
    mm1_priority_preemptive rates mu = .error .unstableAggregate ∧
    mm1_priority_non_preemptive rates mu = .error .unstableAggregate := by
  obtain ⟨k, hk, hle⟩ := hbad
  have hne : rates ≠ [] := by
    intro h
    rw [h] at hk
    simp at hk
  have hge : (1 : ℚ) * mu ≤ rates.sum := by
    have h1 := take_sum_le rates hnn (k + 1)
    linarith
  have hval : validate_common_inputs rates mu 1 = .error .unstableAggregate :=
    validate_err rates mu 1 hne hnn hmu one_ne_zero hge
  constructor
  · simp [mm1_priority_preemptive, hval, Bind.bind, Except.bind]
  · simp [mm1_priority_non_preemptive, hval, Bind.bind, Except.bind]

/-- Witness for the amended C4 at `rates = [2]`, `mu = 1`. -/
theorem C4_witness :
    mm1_priority_preemptive [2] 1 = .error .unstableAggregate ∧
    mm1_priority_non_preemptive [2] 1 = .error .unstableAggregate :=
  C4_amended_aggregate_error [2] 1
    (by intro r hr; simp [List.mem_cons] at hr; norm_num [hr])
    one_pos
    ⟨0, by norm_num, by norm_num⟩

/-- The running sum of the source equals the textbook sum `Σ_{k<s} aᵏ/k!`. -/
theorem powFactSum_eq_sum (a : ℚ) :
    ∀ s : ℕ, powFactSum a s = ∑ k in Finset.range s, a ^ k / (Nat.factorial k : ℚ)
  | 0 => by simp [powFactSum]
  | n + 1 => by
    rw [powFactSum, powFactSum_eq_sum a n, Finset.sum_range_succ]

/-- Claim C5: `erlang_c(λ, mu, s)` returns the Erlang-C waiting probability
`[aˢ/s! · sμ/(sμ-λ)] / [Σ_{k<s} aᵏ/k! + aˢ/s! · sμ/(sμ-λ)]` (with
`a = λ/mu`) whenever `0 < λ < s·mu`, reduces to `ρ = λ/mu` for `s = 1`, and
raises its instability error whenever `λ ≥ s·mu`. -/
theorem C5_erlang_c (lmbda mu : ℚ) (s : ℕ) (hmu : 0 < mu) (hs : 1 ≤ s) :
    (0 < lmbda → lmbda < (s : ℚ) * mu →
      erlang_c lmbda mu s = .ok
        ((lmbda / mu) ^ s / (Nat.factorial s : ℚ) * ((s : ℚ) * mu / ((s : ℚ) * mu - lmbda)) /
          ((∑ k in Finset.range s, (lmbda / mu) ^ k / (Nat.factorial k : ℚ)) +
            (lmbda / mu) ^ s / (Nat.factorial s : ℚ) *
              ((s : ℚ) * mu / ((s : ℚ) * mu - lmbda))))) ∧
    (0 < lmbda → lmbda < (s : ℚ) * mu → s = 1 →
      erlang_c lmbda mu s = .ok (lmbda / mu)) ∧
    ((s : ℚ) * mu ≤ lmbda → erlang_c lmbda mu s = .error .erlangUnstable) := by
  have hs0 : s ≠ 0 := by omega
  refine ⟨?_, ?_, fun hge => erlang_c_err lmbda mu s hmu hs0 hge⟩
  · intro h0 hlt
    rw [erlang_c_ok lmbda mu s h0 hmu hs0 hlt]
    have hcap : (0 : ℚ) < (s : ℚ) * mu := h0.trans hlt
    have hcm : (s : ℚ) * mu - lmbda ≠ 0 := by linarith
    have hrho : 1 - lmbda / ((s : ℚ) * mu) ≠ 0 := by
      have : lmbda / ((s : ℚ) * mu) < 1 := (div_lt_one hcap).2 hlt
      linarith
    have hf : (Nat.factorial s : ℚ) ≠ 0 := by positivity
    have hlast : (lmbda / mu) ^ s / ((Nat.factorial s : ℚ) * (1 - lmbda / ((s : ℚ) * mu))) =
        (lmbda / mu) ^ s / (Nat.factorial s : ℚ) * ((s : ℚ) * mu / ((s : ℚ) * mu - lmbda)) := by
      field_simp
      ring
    simp only [erlangClosed, hlast, powFactSum_eq_sum, mul_one_div]
  · intro h0 hlt hs1
    subst hs1
    rw [erlang_c_ok lmbda mu 1 h0 hmu one_ne_zero hlt]
    have hlt' : lmbda < mu := by simpa using hlt
    have hml : mu - lmbda ≠ 0 := by linarith
    have hrho : 1 - lmbda / mu ≠ 0 := by
      have : lmbda / mu < 1 := (div_lt_one hmu).2 hlt'
      linarith
    have hval : erlangClosed lmbda mu 1 = lmbda / mu := by
      simp only [erlangClosed, powFactSum, Nat.factorial, pow_one, pow_zero, Nat.cast_one,
        one_mul, zero_add, div_one, Nat.cast_succ, Nat.cast_zero, Nat.succ_eq_add_one,
        Nat.mul_one]
      field_simp
    rw [hval]

/-- Witness for C5: the closed-form value at `(λ, mu, s) = (1, 2, 2)`, the
`s = 1` reduction at `(1, 2, 1)`, and the instability rejection at
`(3, 1, 2)`. -/
theorem C5_witness :
    erlang_c 1 2 2 = .ok (1/10) ∧
    erlang_c 1 2 1 = .ok (1/2) ∧
    erlang_c 3 1 2 = .error .erlangUnstable := by
  refine ⟨?_, ?_, (C5_erlang_c 3 1 2 one_pos (by norm_num)).2.2 (by norm_num)⟩
  · have h := (C5_erlang_c 1 2 2 (by norm_num) (by norm_num)).1 (by norm_num) (by norm_num)
    rw [h]
    norm_num [Finset.sum_range_succ]
  · exact (C5_erlang_c 1 2 1 (by norm_num) le_rfl).2.1 (by norm_num) (by norm_num) rfl

/-- Claim C7: `mm1k` never rejects for instability: for every `λ ≥ 0`,
`mu > 0` and `K ≥ 0` — including `ρ = λ/mu ≥ 1` — it returns a metrics
record without raising, and at `ρ = 1` (i.e. `λ = mu`) it returns
`p0 = 1/(K+1)` and `L = K/2`. -/
theorem C7_mm1k_total (lmbda mu : ℚ) (K : ℕ) (h0 : 0 ≤ lmbda) (hmu : 0 < mu) :
    (∃ r, mm1k lmbda mu K none = .ok r) ∧
    (lmbda = mu → ∃ r, mm1k lmbda mu K none = .ok r ∧
      r.p0 = 1 / ((K : ℚ) + 1) ∧ r.L = (K : ℚ) / 2) := by
  by_cases hz : lmbda = 0
  · subst hz
    have hzero : mm1k 0 mu K none = .ok
        { rho := 0, p0 := 1, L := 0, Lq := 0, W := 0, Wq := 0, lambda_eff := 0,
          pK := 0, L_operational := 0, p_any_idle := 0, pn := none } := by
      simp [mm1k, not_lt.2 h0, not_le.2 hmu, Bind.bind, Except.bind, Pure.pure, Except.pure]
    exact ⟨⟨_, hzero⟩, fun heq => absurd heq.symm hmu.ne'⟩
  · have hrnn : 0 ≤ lmbda / mu := div_nonneg h0 hmu.le
    by_cases hnear : |lmbda / mu - 1| < 1 / 100000000
    · have hbranch : mm1k lmbda mu K none = .ok
          { rho := lmbda / mu, p0 := 1 / ((K : ℚ) + 1), L := (K : ℚ) / 2,
            Lq := (K : ℚ) / 2 - (1 - 1 / ((K : ℚ) + 1)),
            W := if 0 < lmbda * (1 - 1 / ((K : ℚ) + 1)) then
              (K : ℚ) / 2 / (lmbda * (1 - 1 / ((K : ℚ) + 1))) else 0,
            Wq := if 0 < lmbda * (1 - 1 / ((K : ℚ) + 1)) then
              ((K : ℚ) / 2 - (1 - 1 / ((K : ℚ) + 1))) / (lmbda * (1 - 1 / ((K : ℚ) + 1)))
              else 0,
            lambda_eff := lmbda * (1 - 1 / ((K : ℚ) + 1)), pK := 1 / ((K : ℚ) + 1),
            L_operational := 0, p_any_idle := 0, pn := none } := by
        simp [mm1k, not_lt.2 h0, not_le.2 hmu, hz, hnear, lt_self_iff_false,
          Bind.bind, Except.bind, Pure.pure, Except.pure]
        intro h
        exact absurd hnear (not_lt.2 (by simpa using h))
      exact ⟨⟨_, hbranch⟩, fun _ => ⟨_, hbranch, rfl, rfl⟩⟩
    · have hrne : lmbda / mu ≠ 1 := by
        intro h
        rw [h] at hnear
        simp at hnear
      have hpow : 1 - (lmbda / mu) ^ (K + 1) ≠ 0 := by
        rcases lt_trichotomy (lmbda / mu) 1 with hlt | heq | hgt
        · have : (lmbda / mu) ^ (K + 1) < 1 := pow_lt_one hrnn hlt (Nat.succ_ne_zero K)
          linarith
        · exact absurd heq hrne
        · have : 1 < (lmbda / mu) ^ (K + 1) := one_lt_pow hgt (Nat.succ_ne_zero K)
          linarith
      have hone : 1 - lmbda / mu ≠ 0 := fun h => hrne (by linarith)
      have hden : (1 - lmbda / mu) * (1 - (lmbda / mu) ^ (K + 1)) ≠ 0 :=
        mul_ne_zero hone hpow
      refine ⟨?_, fun heq => absurd ((div_eq_one_iff_eq hmu.ne').2 heq) hrne⟩
      have h1 : pdiv (1 - lmbda / mu) (1 - (lmbda / mu) ^ (K + 1)) =
          .ok ((1 - lmbda / mu) / (1 - (lmbda / mu) ^ (K + 1))) := by
        simp [pdiv, hpow]
      have h2 : pdiv
          (lmbda / mu * (1 - ((K : ℚ) + 1) * (lmbda / mu) ^ K + (K : ℚ) * (lmbda / mu) ^ (K + 1)))
          ((1 - lmbda / mu) * (1 - (lmbda / mu) ^ (K + 1))) =
          .ok (lmbda / mu * (1 - ((K : ℚ) + 1) * (lmbda / mu) ^ K +
              (K : ℚ) * (lmbda / mu) ^ (K + 1)) /
            ((1 - lmbda / mu) * (1 - (lmbda / mu) ^ (K + 1)))) := by
        simp [pdiv, hden]
      simp only [mm1k, not_lt.2 h0, not_le.2 hmu, hz, lt_self_iff_false, if_false,
        Bind.bind, Except.bind, Pure.pure, Except.pure, h1, h2, hnear, ite_false, ite_true]
      exact ⟨_, rfl⟩

/-- Witness for C7 at `λ = mu = 2`, `K = 3` (exercising the `ρ = 1` branch)
and at `λ = 3, mu = 1, K = 2` (exercising `ρ > 1`). -/
theorem C7_witness :
    (∃ r, mm1k 3 1 2 none = .ok r) ∧
    (∃ r, mm1k 2 2 3 none = .ok r ∧ r.p0 = 1 / ((3 : ℚ) + 1) ∧ r.L = (3 : ℚ) / 2) :=
  ⟨(C7_mm1k_total 3 1 2 (by norm_num) one_pos).1,
   (C7_mm1k_total 2 2 3 (by norm_num) (by norm_num)).2 rfl⟩

/-- Claim C10: for every `mu > 0`, `mm1` with `lmbda = 0` — accepted by its
own validation, which only requires `lmbda ≥ 0` — does not return a metrics
record: the unguarded divisions `W = L/lmbda`, `Wq = Lq/lmbda` raise
`ZeroDivisionError`; whereas `mms` special-cases `lmbda == 0` and returns
all-zero metrics with `p0 = 1`. -/
theorem C10_mm1_zero_lambda (mu : ℚ) (hmu : 0 < mu) :
    mm1 0 mu = .error .divByZero ∧
    ∀ s : ℕ, 1 ≤ s →
      mms 0 mu s = .ok { rho := 0, p0 := 1, L := 0, Lq := 0, W := 0, Wq := 0 } := by
  constructor
  · simp [mm1, pdiv, not_le.2 hmu, Bind.bind, Except.bind, Pure.pure, Except.pure]
  · intro s hs
    have hs0 : s ≠ 0 := by omega
    simp [mms, not_le.2 hmu, hs0,
      Bind.bind, Except.bind, Pure.pure, Except.pure, Functor.map, Except.map]

/-- Witness for C10 at `mu = 1`, `s = 1`. -/
theorem C10_witness :
    mm1 0 1 = .error .divByZero ∧
    mms 0 1 1 = .ok { rho := 0, p0 := 1, L := 0, Lq := 0, W := 0, Wq := 0 } :=
  ⟨(C10_mm1_zero_lambda 1 one_pos).1, (C10_mm1_zero_lambda 1 one_pos).2 1 le_rfl⟩

/-- Claim C6, evaluated at the failing input `λ = 1, mu = 1, N = 2, n = 2`:
`modelos/mm1n.py` computes `pₙ = p0·C(N,n)·rⁿ` with binomial coefficients
(giving `p₂ = 1/4`, `p0 = 1/4`), while the claimed product form
`pₙ = p0·[N!/(N-n)!]·rⁿ` gives `p₂ = 2/5`, `p0 = 1/5` — which is exactly
what the repository's own `formulas.py::Mm1n` and its general finite-source
model `modelos/mmsn.py` at `s = 1` compute.  So `modelos/mm1n.py`
contradicts both the claim and the other two implementations of the same
model in this repository. -/
theorem C6_mm1n_binomial_bug :
    mm1n 1 1 2 (some 2) = .ok
      { rho := 2, p0 := 1/4, L := 1, Lq := 1/4, W := 1, Wq := 1/4,
        lambda_eff := 1, pK := 0, L_operational := 1, p_any_idle := 0,
        pn := some (1/4) } ∧
    spec_mm1n_pn 1 1 2 2 = 2/5 ∧
    spec_mm1n_p0 1 1 2 = 1/5 ∧
    Mm1n_mm1n 1 1 2 = .ok { p0 := 1/5, l := 6/5, lq := 2/5, w := 3/2, wq := 1/2, lam_eff := 4/5 } ∧
    mmsn 1 1 1 2 (some 2) = .ok
      { rho := 4/5, p0 := 1/5, L := 6/5, Lq := 2/5, W := 3/2, Wq := 1/2,
        lambda_eff := 4/5, pK := 0, L_operational := 4/5, p_any_idle := 1/5,
        pn := some (2/5) } ∧
    (1 : ℚ)/4 ≠ 2/5 := by
  refine ⟨?_, ?_, ?_, ?_, ?_, by norm_num⟩
  · norm_num [mm1n, pyComb, Nat.descFactorial, Nat.factorial, List.range_succ,
      Bind.bind, Except.bind, Pure.pure, Except.pure]
  · norm_num [spec_mm1n_pn, spec_mm1n_p0, Nat.descFactorial, List.range_succ]
  · norm_num [spec_mm1n_p0, Nat.descFactorial, List.range_succ]
  · norm_num [Mm1n_mm1n, Nat.factorial, List.range_succ,
      Bind.bind, Except.bind, Pure.pure, Except.pure]
  · norm_num [mmsn, mmsnProds, pdiv, List.range_succ,
      Bind.bind, Except.bind, Pure.pure, Except.pure]

/-- Claim C8, evaluated at the failing input `λ = 2, mu = 1, s = 2, K = 3`
(so `λ = s·mu`, `ρ = 1`): `modelos/mmsk.py` raises (`Caso rho 1 nao
suportado para Lq em M/M/s/K`) instead of computing the special-cased
`ρ = 1` value, while the repository's own `formulas.py::Mmsk.mmsk` supports
`ρ = 1` and returns the finite `Lq = (p0·rˢ/s!)·((K-s)(K-s+1)/2) = 2/7`,
exactly the closed form the claim describes. -/
theorem C8_mmsk_rho_one_bug :
    mmsk 2 1 2 3 none = .error .rhoOneUnsupported ∧
    Mmsk_mmsk 2 1 2 3 = .ok
      { p0 := 1/7, pk := 2/7, l := 12/7, lq := 2/7, w := 6/5, wq := 1/5,
        lam_eff := 10/7 } ∧
    ((1 : ℚ)/7) * 2 ^ 2 / (Nat.factorial 2 : ℚ) *
      ((((3 - 2 : ℕ) : ℚ) * ((3 - 2 + 1 : ℕ) : ℚ)) / 2) = 2/7 := by
  refine ⟨?_, ?_, by norm_num [Nat.factorial]⟩
  · norm_num [mmsk, List.range_succ, Nat.factorial,
      Bind.bind, Except.bind, Pure.pure, Except.pure]
  · norm_num [Mmsk_mmsk, List.range_succ, Nat.factorial,
      Bind.bind, Except.bind, Pure.pure, Except.pure]

/-- Counterexample to claim C9 at `λ = 1, mu = 1, s = 2, N = 1`: the
M/M/s/N model accepts `N < s` and returns a full metrics record — it
performs no `N ≥ s` check. -/
theorem C9_counterexample :
    mmsn 1 1 2 1 none = .ok
      { rho := 1/4, p0 := 1/2, L := 1/2, Lq := 0, W := 1, Wq := 0,
        lambda_eff := 1/2, pK := 0, L_operational := 1/2, p_any_idle := 1,
        pn := none } := by
  norm_num [mmsn, mmsnProds, pdiv, List.range_succ,
    Bind.bind, Except.bind, Pure.pure, Except.pure]

/-- The products `products[i]` of `mmsn` are nonnegative for `λ ≥ 0`,
`mu > 0`, `s ≥ 1`. -/
theorem mmsnProds_nonneg (lmbda mu : ℚ) (s N : ℕ) (h0 : 0 ≤ lmbda) (hmu : 0 < mu) :
    ∀ i, 0 ≤ mmsnProds lmbda mu s N i
  | 0 => by norm_num [mmsnProds]
  | i + 1 => by
    have h1 := mmsnProds_nonneg lmbda mu s N h0 hmu i
    have h2 : (0 : ℚ) ≤ (((N - i : ℕ) : ℚ) * lmbda) / ((min (i + 1) s : ℕ) * mu) := by
      positivity
    simpa [mmsnProds] using mul_nonneg h1 h2

/-- Claim C9 as amended: the M/M/s/K model rejects `K < s` with a domain
error before computing any metric (both in `modelos/mmsk.py` and in
`formulas.py::Mmsk`), but the M/M/s/N model performs no `N ≥ s` check at
all: for every `λ ≥ 0`, `mu > 0`, `s ≥ 1` and every `N` — including
`N < s` — `mmsn` returns a metrics record without raising. -/
theorem C9_amended_K_check_only (lmbda mu : ℚ) (s K N : ℕ)
    (h0 : 0 ≤ lmbda) (hmu : 0 < mu) (hs : s ≠ 0) :
    (K < s → mmsk lmbda mu s K none = .error .kLessS) ∧
    (K < s → Mmsk_mmsk lmbda mu s K = .error .kLessS) ∧
    (∃ r, mmsn lmbda mu s N none = .ok r) := by
  refine ⟨fun hK => ?_, fun hK => ?_, ?_⟩
  · simp [mmsk, not_lt.2 h0, not_le.2 hmu, hs, hK,
      Bind.bind, Except.bind, Pure.pure, Except.pure]
  · simp [Mmsk_mmsk, hK, Bind.bind, Except.bind, Pure.pure, Except.pure]
  · match N with
    | 0 =>
        have hzero : mmsn lmbda mu s 0 none = .ok
            { rho := 0, p0 := 1, L := 0, Lq := 0, W := 0, Wq := 0, lambda_eff := 0,
              pK := 0, L_operational := 0, p_any_idle := 1, pn := none } := by
          simp [mmsn, not_lt.2 h0, not_le.2 hmu, hs,
            Bind.bind, Except.bind, Pure.pure, Except.pure]
        exact ⟨_, hzero⟩
    | N + 1 =>
        have hrest : 0 ≤ (((List.range (N + 1)).map fun j =>
            mmsnProds lmbda mu s (N + 1) (Nat.succ j)).sum) := by
          apply List.sum_nonneg
          intro x hx
          simp only [List.mem_map] at hx
          obtain ⟨j, _, rfl⟩ := hx
          exact mmsnProds_nonneg lmbda mu s (N + 1) h0 hmu _
        have hdenom : ((List.range (N + 1 + 1)).map fun i =>
            mmsnProds lmbda mu s (N + 1) i).sum ≠ 0 := by
          rw [List.range_succ_eq_map]
          simp only [List.map_cons, List.sum_cons, List.map_map]
          have h1 : mmsnProds lmbda mu s (N + 1) 0 = 1 := rfl
          rw [h1]
          have : ((List.range (N + 1)).map fun j =>
              mmsnProds lmbda mu s (N + 1) (Nat.succ j)).sum =
              ((List.range (N + 1)).map (mmsnProds lmbda mu s (N + 1) ∘ Nat.succ)).sum := rfl
          intro hzero
          rw [show ((List.range (N + 1)).map
            (mmsnProds lmbda mu s (N + 1) ∘ Nat.succ)) =
            ((List.range (N + 1)).map fun j =>
              mmsnProds lmbda mu s (N + 1) (Nat.succ j)) from rfl] at hzero
          linarith
        have hp0 : pdiv 1 (((List.range (N + 1 + 1)).map fun i =>
            mmsnProds lmbda mu s (N + 1) i).sum) =
            .ok (1 / (((List.range (N + 1 + 1)).map fun i =>
              mmsnProds lmbda mu s (N + 1) i).sum)) := by
          simp [pdiv, hdenom]
        simp only [mmsn, not_lt.2 h0, not_le.2 hmu, hs, if_false, ite_false, Nat.succ_ne_zero,
          Bind.bind, Except.bind, Pure.pure, Except.pure, hp0]
        exact ⟨_, rfl⟩

/-- Witness for the amended C9 at `λ = 1, mu = 1, s = 2, K = 1, N = 1`. -/
theorem C9_witness :
    (1 < 2 → mmsk 1 1 2 1 none = .error .kLessS) ∧
    (1 < 2 → Mmsk_mmsk 1 1 2 1 = .error .kLessS) ∧
    (∃ r, mmsn 1 1 2 1 none = .ok r) :=
  C9_amended_K_check_only 1 1 2 1 1 (by norm_num) one_pos (by norm_num)

/-- The `s ≥ 2` preemptive loop succeeds on strictly positive rates whose
total stays below `s·mu` (each `erlang_c` / `mms` sub-call is stable, and
the division by `λₖ` is safe because every rate is nonzero). -/
theorem mmsPreLoop_ok (mu : ℚ) (s : ℕ) (hmu : 0 < mu) (hs : s ≠ 0) :
    ∀ (rest : List ℚ) (idx : ℕ) (prev acc : ℚ),
    (∀ r ∈ rest, 0 < r) → 0 ≤ prev → prev + rest.sum < (s : ℚ) * mu →
    ∃ cls, mmsPreLoop mu s rest idx prev acc = .ok cls := by
  intro rest
  induction rest with
  | nil => exact fun idx prev acc _ _ _ => ⟨[], rfl⟩
  | cons lam rest ih =>
      intro idx prev acc hpos hprev hsum
      have hlam : 0 < lam := hpos lam (List.mem_cons_self lam rest)
      have hrest : ∀ r ∈ rest, 0 < r := fun r hr => hpos r (List.mem_cons_of_mem lam hr)
      have hrsum : 0 ≤ rest.sum := List.sum_nonneg (fun r hr => (hrest r hr).le)
      have hsum' : prev + lam + rest.sum < (s : ℚ) * mu := by
        simpa [add_assoc] using hsum
      have hcum : 0 < prev + lam := by linarith
      have hcumlt : prev + lam < (s : ℚ) * mu := by linarith
      have he : erlang_c (prev + lam) mu s = .ok (erlangClosed (prev + lam) mu s) :=
        erlang_c_ok _ mu s hcum hmu hs hcumlt
      have hm : mms (prev + lam) mu s = .ok (mmsClosed (prev + lam) mu s) :=
        mms_ok _ mu s hcum hmu hs hcumlt
      by_cases hidx : idx = 0
      · subst hidx
        obtain ⟨cls, hok⟩ := ih 1 (prev + lam) (acc + lam * (mmsClosed (prev + lam) mu s).W)
          hrest hcum.le hsum'
        simp [mmsPreLoop, he, hm, hok, Bind.bind, Except.bind, Pure.pure, Except.pure]
      · obtain ⟨cls, hok⟩ := ih (idx + 1) (prev + lam)
          (acc + lam * (((prev + lam) * (mmsClosed (prev + lam) mu s).W - acc) / lam))
          hrest hcum.le hsum'
        simp [mmsPreLoop, he, hm, hok, hidx, pdiv, hlam.ne',
          Bind.bind, Except.bind, Pure.pure, Except.pure]

/-- Success behaviour of `mms_priority_preemptive` for `s ≥ 2` on strictly
positive rates with `0 < Σλ < s·mu`: the aggregate block of the returned
record is copied from `mms(Σλ, mu, s)`. -/
theorem mms_priority_preemptive_eq (rates : List ℚ) (mu : ℚ) (s : ℕ)
    (hs2 : 2 ≤ s) (hpos : ∀ r ∈ rates, 0 < r) (hmu : 0 < mu)
    (hsum : 0 < rates.sum) (hlt : rates.sum < (s : ℚ) * mu) :
    ∃ cls, mms_priority_preemptive rates mu s = .ok
      { rho := rates.sum / ((s : ℚ) * mu), p0 := (mmsClosed rates.sum mu s).p0,
        L := (mmsClosed rates.sum mu s).L, Lq := (mmsClosed rates.sum mu s).Lq,
        W := (mmsClosed rates.sum mu s).W, Wq := (mmsClosed rates.sum mu s).Wq,
        per_class := cls, lambda_total := rates.sum,
        service_in_progress := rates.sum / mu } := by
  have hs1 : s ≠ 1 := by omega
  have hs0 : s ≠ 0 := by omega
  have hne : rates ≠ [] := by
    intro h
    rw [h] at hsum
    simp at hsum
  have hnn : ∀ r ∈ rates, 0 ≤ r := fun r hr => (hpos r hr).le
  have hval : validate_common_inputs rates mu s = .ok rates :=
    validate_ok rates mu s hne hnn hmu hs0 hlt
  have hm : mms rates.sum mu s = .ok (mmsClosed rates.sum mu s) :=
    mms_ok rates.sum mu s hsum hmu hs0 hlt
  obtain ⟨cls, hloop⟩ := mmsPreLoop_ok mu s hmu hs0 rates 0 0 0 hpos le_rfl (by simpa using hlt)
  simp [mms_priority_preemptive, hs1, hval, hm, hloop, hsum.ne',
    Bind.bind, Except.bind, Pure.pure, Except.pure]

/-- Invariant of the non-preemptive `s ≥ 2` loop with positive base factor:
on nonnegative remaining rates whose total stays below the capacity
`c = s·mu`, the loop succeeds (the two `max`es of the source are inactive)
and the per-class `λ`, `Lq`, `L` sums telescope. -/
theorem mmsNonPreLoop_ok (mu : ℚ) (s : ℕ) (base : ℚ)
    (hmu : 0 < mu) (hbase : 0 < base) :
    ∀ (rest : List ℚ) (idx : ℕ) (prev : ℚ),
    (∀ r ∈ rest, 0 ≤ r) → 0 ≤ prev → prev + rest.sum < (s : ℚ) * mu →
    ∃ cls, mmsNonPreLoop mu s base rest idx prev = .ok cls ∧
      (cls.map ClassMetrics.lam).sum = rest.sum ∧
      (cls.map ClassMetrics.Lq).sum =
        ((s : ℚ) * mu) ^ 2 / base *
          (1 / ((s : ℚ) * mu - (prev + rest.sum)) - 1 / ((s : ℚ) * mu - prev)) ∧
      (cls.map ClassMetrics.L).sum =
        ((s : ℚ) * mu) ^ 2 / base *
          (1 / ((s : ℚ) * mu - (prev + rest.sum)) - 1 / ((s : ℚ) * mu - prev)) +
          rest.sum / mu := by
  intro rest
  induction rest with
  | nil =>
      intro idx prev _ _ _
      exact ⟨[], rfl, by simp, by simp, by simp⟩
  | cons lam rest ih =>
      intro idx prev hnn hprev hsum
      have hlam : 0 ≤ lam := hnn lam (List.mem_cons_self lam rest)
      have hrest : ∀ r ∈ rest, 0 ≤ r := fun r hr => hnn r (List.mem_cons_of_mem lam hr)
      have hrsum : 0 ≤ rest.sum := List.sum_nonneg hrest
      have hsum' : prev + lam + rest.sum < (s : ℚ) * mu := by
        simpa [add_assoc] using hsum
      have hcum : 0 ≤ prev + lam := add_nonneg hprev hlam
      have hc : 0 < (s : ℚ) * mu := lt_of_le_of_lt (by linarith) hsum'
      have hdp : 0 < (s : ℚ) * mu - prev := by linarith
      have hdc : 0 < (s : ℚ) * mu - (prev + lam) := by linarith
      have hfp : 0 < 1 - prev / ((s : ℚ) * mu) := by
        rw [sub_pos]
        exact (div_lt_one hc).2 (by linarith)
      have hfc : 0 < 1 - (prev + lam) / ((s : ℚ) * mu) := by
        rw [sub_pos]
        exact (div_lt_one hc).2 (by linarith)
      have hg : ¬ (1 - prev / ((s : ℚ) * mu) ≤ 0 ∨ 1 - (prev + lam) / ((s : ℚ) * mu) ≤ 0) := by
        push_neg
        exact ⟨hfp, hfc⟩
      have hWpos : 0 ≤ 1 / (base * (1 - prev / ((s : ℚ) * mu)) *
          (1 - (prev + lam) / ((s : ℚ) * mu))) := by
        positivity
      have hmax1 : max (1 / (base * (1 - prev / ((s : ℚ) * mu)) *
          (1 - (prev + lam) / ((s : ℚ) * mu))) + 1 / mu - 1 / mu) 0 =
          1 / (base * (1 - prev / ((s : ℚ) * mu)) * (1 - (prev + lam) / ((s : ℚ) * mu))) := by
        rw [add_sub_cancel_right]
        exact max_eq_left hWpos
      have hmax2 : max (lam * (1 / (base * (1 - prev / ((s : ℚ) * mu)) *
          (1 - (prev + lam) / ((s : ℚ) * mu))) + 1 / mu) - lam / mu) 0 =
          lam * (1 / (base * (1 - prev / ((s : ℚ) * mu)) *
            (1 - (prev + lam) / ((s : ℚ) * mu)))) := by
        have h1 : lam * (1 / (base * (1 - prev / ((s : ℚ) * mu)) *
            (1 - (prev + lam) / ((s : ℚ) * mu))) + 1 / mu) - lam / mu =
            lam * (1 / (base * (1 - prev / ((s : ℚ) * mu)) *
              (1 - (prev + lam) / ((s : ℚ) * mu)))) := by
          field_simp
          ring
        rw [h1]
        exact max_eq_left (mul_nonneg hlam hWpos)
      obtain ⟨cls, hok, hlamS, hLqS, hLS⟩ := ih (idx + 1) (prev + lam) hrest hcum hsum'
      refine
        ⟨{ priority := idx + 1, lam := lam, lam_cum := 0,
           rho := lam / ((s : ℚ) * mu),
           W := 1 / (base * (1 - prev / ((s : ℚ) * mu)) *
             (1 - (prev + lam) / ((s : ℚ) * mu))) + 1 / mu,
           Wq := max (1 / (base * (1 - prev / ((s : ℚ) * mu)) *
             (1 - (prev + lam) / ((s : ℚ) * mu))) + 1 / mu - 1 / mu) 0,
           L := lam * (1 / (base * (1 - prev / ((s : ℚ) * mu)) *
             (1 - (prev + lam) / ((s : ℚ) * mu))) + 1 / mu),
           Lq := max (lam * (1 / (base * (1 - prev / ((s : ℚ) * mu)) *
             (1 - (prev + lam) / ((s : ℚ) * mu))) + 1 / mu) - lam / mu) 0,
           L_class := 0, Lq_class := 0, pwait := 0, base_factor := base } :: cls,
         ?_, ?_, ?_, ?_⟩
      · show mmsNonPreLoop mu s base (lam :: rest) idx prev = _
        simp only [mmsNonPreLoop, hg, if_false, hok,
          Bind.bind, Except.bind, Pure.pure, Except.pure]
      · simp only [List.map_cons, List.sum_cons, hlamS, List.sum_cons]
      · simp only [List.map_cons, List.sum_cons, hLqS, hmax2]
        have hstep : lam * (1 / (base * (1 - prev / ((s : ℚ) * mu)) *
            (1 - (prev + lam) / ((s : ℚ) * mu)))) =
            ((s : ℚ) * mu) ^ 2 / base *
              (1 / ((s : ℚ) * mu - (prev + lam)) - 1 / ((s : ℚ) * mu - prev)) := by
          field_simp
          ring
        rw [hstep, ← add_assoc]
        ring
      · simp only [List.map_cons, List.sum_cons, hLS]
        have hstep : lam * (1 / (base * (1 - prev / ((s : ℚ) * mu)) *
            (1 - (prev + lam) / ((s : ℚ) * mu))) + 1 / mu) =
            ((s : ℚ) * mu) ^ 2 / base *
              (1 / ((s : ℚ) * mu - (prev + lam)) - 1 / ((s : ℚ) * mu - prev)) + lam / mu := by
          field_simp
          ring
        rw [hstep, ← add_assoc]
        ring

/-- Key algebra for the `s ≥ 2` non-preemptive engine: the telescoped sum
`Σ λₖ·Wqₖ = c²/B · (1/(c-S) - 1/c)` over the whole class list (capacity
`c = s·mu`, normalising constant `B` of the source) equals the `Lq` of the
merged `mms(S, mu, s)` model. -/
theorem nonpre_base_Lq_eq (mu S : ℚ) (s : ℕ) (hmu : 0 < mu) (hS : 0 < S) (hs : s ≠ 0)
    (hlt : S < (s : ℚ) * mu) :
    ((s : ℚ) * mu) ^ 2 /
        (((Nat.factorial s : ℚ) * ((s : ℚ) * mu - S) / (S / mu) ^ s) * powFactSum (S / mu) s
          + (s : ℚ) * mu) *
      (1 / ((s : ℚ) * mu - S) - 1 / ((s : ℚ) * mu)) = (mmsClosed S mu s).Lq := by
  have hs1 : 1 ≤ s := Nat.one_le_iff_ne_zero.2 hs
  have hc : (0 : ℚ) < (s : ℚ) * mu := hS.trans hlt
  have hcS : (0 : ℚ) < (s : ℚ) * mu - S := by linarith
  have hF : (0 : ℚ) < (Nat.factorial s : ℚ) := by positivity
  have ha : (0 : ℚ) < S / mu := div_pos hS hmu
  have has : (0 : ℚ) < (S / mu) ^ s := pow_pos ha s
  have hsum1 : (1 : ℚ) ≤ powFactSum (S / mu) s := one_le_powFactSum _ ha.le s hs1
  have hrho : S / ((s : ℚ) * mu) < 1 := (div_lt_one hc).2 hlt
  have h1rho : (0 : ℚ) < 1 - S / ((s : ℚ) * mu) := by linarith
  have hbase : (0 : ℚ) <
      ((Nat.factorial s : ℚ) * ((s : ℚ) * mu - S) / (S / mu) ^ s) * powFactSum (S / mu) s
        + (s : ℚ) * mu := by
    have h1 : (0 : ℚ) < (Nat.factorial s : ℚ) * ((s : ℚ) * mu - S) / (S / mu) ^ s := by
      positivity
    nlinarith
  have hden : (0 : ℚ) < powFactSum (S / mu) s +
      (S / mu) ^ s / ((Nat.factorial s : ℚ) * (1 - S / ((s : ℚ) * mu))) := by
    have h1 : (0 : ℚ) < (S / mu) ^ s / ((Nat.factorial s : ℚ) * (1 - S / ((s : ℚ) * mu))) := by
      positivity
    linarith
  simp only [mmsClosed]
  field_simp
  ring

/-- Success behaviour of `mms_priority_non_preemptive` for `s ≥ 2` on
nonnegative rates with `0 < Σλ < s·mu`: the returned aggregate `W` and `Wq`
(derived by `aggregate_totals` from the per-class breakdown) equal those of
the merged `mms(Σλ, mu, s)` model. -/
theorem mms_priority_non_preemptive_eq (rates : List ℚ) (mu : ℚ) (s : ℕ)
    (hs2 : 2 ≤ s) (hnn : ∀ r ∈ rates, 0 ≤ r) (hmu : 0 < mu)
    (hsum : 0 < rates.sum) (hlt : rates.sum < (s : ℚ) * mu) :
    ∃ res, mms_priority_non_preemptive rates mu s = .ok res ∧
      res.W = (mmsClosed rates.sum mu s).W ∧
      res.Wq = (mmsClosed rates.sum mu s).Wq := by
  have hs1 : s ≠ 1 := by omega
  have hs0 : s ≠ 0 := by omega
  have hne : rates ≠ [] := by
    intro h
    rw [h] at hsum
    simp at hsum
  have hval : validate_common_inputs rates mu s = .ok rates :=
    validate_ok rates mu s hne hnn hmu hs0 hlt
  have hr0 : rates.sum / mu ≠ 0 := by positivity
  have hc : (0 : ℚ) < (s : ℚ) * mu := hsum.trans hlt
  have hcS : (0 : ℚ) < (s : ℚ) * mu - rates.sum := by linarith
  have hF : (0 : ℚ) < (Nat.factorial s : ℚ) := by positivity
  have has : (0 : ℚ) < (rates.sum / mu) ^ s := by positivity
  have hsum1 : (1 : ℚ) ≤ powFactSum (rates.sum / mu) s :=
    one_le_powFactSum _ (by positivity) s (by omega)
  have hbase : (0 : ℚ) <
      ((Nat.factorial s : ℚ) * ((s : ℚ) * mu - rates.sum) / (rates.sum / mu) ^ s) *
        powFactSum (rates.sum / mu) s + (s : ℚ) * mu := by
    have h1 : (0 : ℚ) < (Nat.factorial s : ℚ) * ((s : ℚ) * mu - rates.sum) /
        (rates.sum / mu) ^ s := by
      positivity
    nlinarith
  obtain ⟨cls, hloop, hlamS, hLqS, hLS⟩ :=
    mmsNonPreLoop_ok mu s _ hmu hbase rates 0 0 hnn le_rfl (by simpa using hlt)
  have hLqS' : (cls.map ClassMetrics.Lq).sum = (mmsClosed rates.sum mu s).Lq := by
    rw [hLqS]
    rw [← nonpre_base_Lq_eq mu rates.sum s hmu hsum hs0 hlt]
    norm_num
  have hLS' : (cls.map ClassMetrics.L).sum =
      (mmsClosed rates.sum mu s).Lq + rates.sum / mu := by
    rw [hLS, ← nonpre_base_Lq_eq mu rates.sum s hmu hsum hs0 hlt]
    norm_num
  refine ⟨aggregate_totals cls mu s, ?_, ?_, ?_⟩
  · simp [mms_priority_non_preemptive, hs1, hval, hsum.ne', hr0, hloop,
      Bind.bind, Except.bind, Pure.pure, Except.pure]
  · simp only [aggregate_totals, hlamS, hLS', hsum, if_true, ite_true]
    simp [mmsClosed, hsum]
  · simp only [aggregate_totals, hlamS, hLqS', hsum, if_true, ite_true]
    simp [mmsClosed, hsum]

/-- Counterexample to claim C3 at `rates = [1, 0]`, `mu = 1`, `s = 2`: the
total `λ = 1` lies in `(0, s·mu) = (0, 2)`, yet the preemptive `s > 1`
engine raises `ZeroDivisionError` (its decomposition divides by `λₖ` and
class 2 has `λ₂ = 0`), so it returns no aggregates to compare with the
merged model at all. -/
theorem C3_counterexample :
    (0 : ℚ) < ([1, 0] : List ℚ).sum ∧
    ([1, 0] : List ℚ).sum < ((2 : ℕ) : ℚ) * 1 ∧
    mms_priority_preemptive [1, 0] 1 2 = .error .divByZero := by
  refine ⟨by norm_num, by norm_num, ?_⟩
  have hval : validate_common_inputs [1, 0] 1 2 = .ok [1, 0] :=
    validate_ok [1, 0] 1 2 (by simp)
      (by intro r hr; simp [List.mem_cons] at hr; rcases hr with h | h <;> norm_num [h])
      one_pos (by norm_num) (by norm_num)
  have he : erlang_c 1 1 2 = .ok (erlangClosed 1 1 2) :=
    erlang_c_ok 1 1 2 one_pos one_pos (by norm_num) (by norm_num)
  have hm : mms 1 1 2 = .ok (mmsClosed 1 1 2) :=
    mms_ok 1 1 2 one_pos one_pos (by norm_num) (by norm_num)
  norm_num [mms_priority_preemptive, mmsPreLoop, hval, he, hm, pdiv,
    Bind.bind, Except.bind, Pure.pure, Except.pure]

/-- Claim C3 as amended: the aggregate `W` and `Wq` returned by each
priority engine equal those of the merged single-class model called with
`λ_total` (`mm1` for `s = 1`, `mms` for `s > 1`), for every nonnegative
rates list with `0 < λ_total` below capacity — except that for the
preemptive `s > 1` engine the rates must be strictly positive, because its
per-class decomposition divides by `λₖ` and crashes on a zero rate in any
class after the first (see `C3_counterexample`). -/
theorem C3_amended_decomposition :
    (∀ (rates : List ℚ) (mu : ℚ), (∀ r ∈ rates, 0 ≤ r) →
      0 < rates.sum → rates.sum < mu →
      ∃ res m, mm1_priority_preemptive rates mu = .ok res ∧
        mm1 rates.sum mu = .ok m ∧ res.W = m.W ∧ res.Wq = m.Wq) ∧
    (∀ (rates : List ℚ) (mu : ℚ), (∀ r ∈ rates, 0 ≤ r) →
      0 < rates.sum → rates.sum < mu →
      ∃ res m, mm1_priority_non_preemptive rates mu = .ok res ∧
        mm1 rates.sum mu = .ok m ∧ res.W = m.W ∧ res.Wq = m.Wq) ∧
    (∀ (rates : List ℚ) (mu : ℚ) (s : ℕ), 2 ≤ s → (∀ r ∈ rates, 0 < r) →
      0 < mu → 0 < rates.sum → rates.sum < (s : ℚ) * mu →
      ∃ res m, mms_priority_preemptive rates mu s = .ok res ∧
        mms rates.sum mu s = .ok m ∧ res.W = m.W ∧ res.Wq = m.Wq) ∧
    (∀ (rates : List ℚ) (mu : ℚ) (s : ℕ), 2 ≤ s → (∀ r ∈ rates, 0 ≤ r) →
      0 < mu → 0 < rates.sum → rates.sum < (s : ℚ) * mu →
      ∃ res m, mms_priority_non_preemptive rates mu s = .ok res ∧
        mms rates.sum mu s = .ok m ∧ res.W = m.W ∧ res.Wq = m.Wq) := by
  refine ⟨?_, ?_, ?_, ?_⟩
  · intro rates mu hnn hpos hlt
    have hmu : 0 < mu := hpos.trans hlt
    have hms : mu - rates.sum ≠ 0 := by linarith
    have h1m : 1 - rates.sum / mu ≠ 0 := by
      have : rates.sum / mu < 1 := (div_lt_one hmu).2 hlt
      linarith
    obtain ⟨cls, heq, _, _⟩ := mm1_priority_preemptive_eq rates mu hnn hpos hlt
    refine ⟨_, _, heq, mm1_ok rates.sum mu hpos hlt, ?_, ?_⟩
    · show (mu / (mu - rates.sum) - 1) / rates.sum = _
      have e1 : mu / (mu - rates.sum) - 1 = (rates.sum / mu) / (1 - rates.sum / mu) := by
        field_simp
        try ring
      rw [e1]
      rfl
    · show (mu / (mu - rates.sum) - 1 - rates.sum / mu) / rates.sum = _
      have e2 : mu / (mu - rates.sum) - 1 - rates.sum / mu =
          (rates.sum / mu) ^ 2 / (1 - rates.sum / mu) := by
        field_simp
        try ring
      rw [e2]
      rfl
  · intro rates mu hnn hpos hlt
    have hmu : 0 < mu := hpos.trans hlt
    have hms : mu - rates.sum ≠ 0 := by linarith
    have h1m : 1 - rates.sum / mu ≠ 0 := by
      have : rates.sum / mu < 1 := (div_lt_one hmu).2 hlt
      linarith
    obtain ⟨cls, heq, _, _⟩ := mm1_priority_non_preemptive_eq rates mu hnn hpos hlt
    refine ⟨_, _, heq, mm1_ok rates.sum mu hpos hlt, ?_, ?_⟩
    · show (rates.sum * (1 / (mu - rates.sum) - 1 / mu) + rates.sum / mu) / rates.sum = _
      have e3 : rates.sum * (1 / (mu - rates.sum) - 1 / mu) + rates.sum / mu =
          (rates.sum / mu) / (1 - rates.sum / mu) := by
        field_simp
        try ring
      rw [e3]
      rfl
    · show rates.sum * (1 / (mu - rates.sum) - 1 / mu) / rates.sum = _
      have e2 : rates.sum * (1 / (mu - rates.sum) - 1 / mu) =
          (rates.sum / mu) ^ 2 / (1 - rates.sum / mu) := by
        field_simp
        try ring
      rw [e2]
      rfl
  · intro rates mu s hs2 hpos hmu hsum hlt
    have hs0 : s ≠ 0 := by omega
    obtain ⟨cls, heq⟩ := mms_priority_preemptive_eq rates mu s hs2 hpos hmu hsum hlt
    exact ⟨_, _, heq, mms_ok rates.sum mu s hsum hmu hs0 hlt, rfl, rfl⟩
  · intro rates mu s hs2 hnn hmu hsum hlt
    have hs0 : s ≠ 0 := by omega
    obtain ⟨res, heq, hW, hWq⟩ :=
      mms_priority_non_preemptive_eq rates mu s hs2 hnn hmu hsum hlt
    exact ⟨_, _, heq, mms_ok rates.sum mu s hsum hmu hs0 hlt, hW, hWq⟩

/-- Witness for the amended C3: both `s = 1` engines at
`rates = [1/2, 1/4]`, `mu = 2` against `mm1(3/4, 2)`, and both `s = 2`
engines at `rates = [1/2, 1/2]`, `mu = 1` against `mms(1, 1, 2)`. -/
theorem C3_witness :
    (∃ res m, mm1_priority_preemptive [1/2, 1/4] 2 = .ok res ∧
      mm1 ([1/2, 1/4] : List ℚ).sum 2 = .ok m ∧ res.W = m.W ∧ res.Wq = m.Wq) ∧
    (∃ res m, mm1_priority_non_preemptive [1/2, 1/4] 2 = .ok res ∧
      mm1 ([1/2, 1/4] : List ℚ).sum 2 = .ok m ∧ res.W = m.W ∧ res.Wq = m.Wq) ∧
    (∃ res m, mms_priority_preemptive [1/2, 1/2] 1 2 = .ok res ∧
      mms ([1/2, 1/2] : List ℚ).sum 1 2 = .ok m ∧ res.W = m.W ∧ res.Wq = m.Wq) ∧
    (∃ res m, mms_priority_non_preemptive [1/2, 1/2] 1 2 = .ok res ∧
      mms ([1/2, 1/2] : List ℚ).sum 1 2 = .ok m ∧ res.W = m.W ∧ res.Wq = m.Wq) :=
  ⟨C3_amended_decomposition.1 [1/2, 1/4] 2
      (by intro r hr; simp [List.mem_cons] at hr; rcases hr with h | h <;> norm_num [h])
      (by norm_num) (by norm_num),
   C3_amended_decomposition.2.1 [1/2, 1/4] 2
      (by intro r hr; simp [List.mem_cons] at hr; rcases hr with h | h <;> norm_num [h])
      (by norm_num) (by norm_num),
   C3_amended_decomposition.2.2.1 [1/2, 1/2] 1 2 (by norm_num)
      (by intro r hr; simp [List.mem_cons] at hr; norm_num [hr])
      one_pos (by norm_num) (by norm_num),
   C3_amended_decomposition.2.2.2 [1/2, 1/2] 1 2 (by norm_num)
      (by intro r hr; simp [List.mem_cons] at hr; norm_num [hr])
      one_pos (by norm_num) (by norm_num)⟩
